import Mathlib

/-!
Verification of the RadDB tuple-storage layer and query-condition utilities.

The Rust source is shallowly embedded: pure functions become Lean functions,
stateful code becomes explicit state passing on record types, `BigUint`
key hashes become `Nat`, Rust strings become `List Char`, fallible code
(including panics such as `unwrap`, `expect` and `unimplemented!`) returns
`Option` or `Except`.  Components of the repository that are not present in
the source tree (the value/type collaborator `rad_db_types`, the key-hash
collaborator and the `extendible_hashing` module) are modelled from the
specification, and each such definition says so in its doc comment.
-/

namespace RadDB

/-- Modelled from the spec: the external value collaborator (`rad_db_types`)
is absent from the source tree; the spec only requires typed values with
equality and a declared-type list, so a minimal closed value universe is
used. -/
inductive Value where
  | intV (n : Int)
  | strV (s : List Char)
  | boolV (b : Bool)
deriving DecidableEq, Repr

/-- Modelled from the spec: the declared attribute types of a relation
(`Type` in `rad_db_types`). -/
inductive Ty where
  | intT
  | strT
  | boolT
deriving DecidableEq, Repr

/-- A tuple is an ordered sequence of values (source: `Tuple`, a wrapper
around a vector of `Type` values). -/
def Tuple := List Value
deriving DecidableEq, Repr

/-- Modelled from the spec: whether a single value matches a declared type
(the spec requires `IncorrectTypes(positions)` to list attribute positions
whose values do not match the relation's declared types). -/
def valueMatches : Value → Ty → Bool
  | .intV _, .intT => true
  | .strV _, .strT => true
  | .boolV _, .boolT => true
  | _, _ => false

/-- Modelled from the spec: the positions at which a tuple's values do not
match the declared types. -/
def mismatchPositions (tys : List Ty) (t : Tuple) : List Nat :=
  ((List.zip tys t).enum.filter
    (fun p => !valueMatches p.2.2 p.2.1)).map Prod.fst

/-! ### Decimal printing and parsing of hashes

The source writes a page entry's key hash with Rust's decimal `Display`
for `BigUint` and reads it back with `BigUint::from_str`; both are embedded
here over `Nat` (little-endian digit peeling, then reversal, matching the
usual decimal representation). -/

/-- The character for a single decimal digit. -/
def digitChar (d : Nat) : Char := Char.ofNat (48 + d)

/-- Little-endian decimal digits of a natural number; empty for zero. -/
def natDigitsRev (n : Nat) : List Char :=
  if n = 0 then []
  else digitChar (n % 10) :: natDigitsRev (n / 10)
decreasing_by exact Nat.div_lt_self (Nat.pos_of_ne_zero (by assumption)) (by omega)

/-- Decimal representation of a natural number (Rust `format "{}"` on a
`BigUint`). -/
def natRepr (n : Nat) : List Char :=
  if n = 0 then [digitChar 0] else (natDigitsRev n).reverse

/-- Parse one decimal digit character. -/
def parseDigit (c : Char) : Option Nat :=
  if 48 ≤ c.toNat ∧ c.toNat ≤ 57 then some (c.toNat - 48) else none

/-- Left-to-right decimal accumulation. -/
def parseNatAux : Nat → List Char → Option Nat
  | acc, [] => some acc
  | acc, c :: cs =>
    match parseDigit c with
    | none => none
    | some d => parseNatAux (acc * 10 + d) cs

/-- Parse a decimal natural number (Rust `BigUint::from_str`): fails on the
empty string and on any non-digit character; leading zeros are accepted. -/
def parseNat : List Char → Option Nat
  | [] => none
  | cs => parseNatAux 0 cs

/-! ### Page entry lists (`BlockContents`)

`BlockContents.internal` is a `Vec<(BigUint, Tuple)>`; here a
`List (Nat × Tuple)`. -/

/-- First tuple stored under a key hash (source:
`BlockContents::get_tuple`, a front-to-back scan returning the first
match). -/
def assocFind : List (Nat × Tuple) → Nat → Option Tuple
  | [], _ => none
  | (h', t) :: rest, h => if h' = h then some t else assocFind rest h

/-- Source: `BlockContents::insert_tuple`.  If some entry already has the
key hash, the first such entry's tuple is replaced in place
(`get_tuple_mut` + `mem::replace`) and the displaced tuple is returned;
otherwise the pair is pushed at the end and `none` is returned. -/
def insertIntoEntries : List (Nat × Tuple) → Nat → Tuple → Option Tuple × List (Nat × Tuple)
  | [], h, t => (none, [(h, t)])
  | (h', t') :: rest, h, t =>
    if h' = h then (some t', (h', t) :: rest)
    else
      let r := insertIntoEntries rest h t
      (r.1, (h', t') :: r.2)

/-- Source: `BlockContents::remove_tuple`.  Removes the first entry whose
key hash matches, returning its tuple, or returns `none` leaving the list
unchanged. -/
def removeFromEntries : List (Nat × Tuple) → Nat → Option Tuple × List (Nat × Tuple)
  | [], _ => (none, [])
  | (h', t') :: rest, h =>
    if h' = h then (some t', rest)
    else
      let r := removeFromEntries rest h
      (r.1, (h', t') :: r.2)

/-! ### The page (`Block`) -/

/-- Source: `Block`.  `blockContents` is `Option<BlockContents>` reduced to
its entry list; `file` is the page's on-disk file as a list of lines
(each line without its terminating newline); `len` is the redundantly
cached entry count; `reads` the live-reader count. -/
structure Block where
  len : Nat
  blockContents : Option (List (Nat × Tuple))
  file : List (List Char)
  reads : Nat
deriving DecidableEq, Repr

/-- The line written for one entry by `Block::unload`:
`<decimal hash>:<serialized tuple>` (the `writeln!` format string). -/
def entryLine (ser : Tuple → List Char) (e : Nat × Tuple) : List Char :=
  natRepr e.1 ++ ':' :: ser e.2

/-- Source: `Block::unload`.  If contents are materialized, the in-memory
copy is discarded and the file is fully rewritten (truncate-and-rewrite:
`remove_file` + `File::create`) with one line per entry in the entries'
current order; an unmaterialized block is left untouched.  The cached `len`
is not changed (the assignment is commented out in the source). -/
def unloadB (ser : Tuple → List Char) (b : Block) : Block :=
  match b.blockContents with
  | none => b
  | some internal =>
    { b with blockContents := none, file := internal.map (entryLine ser) }

/-- Remove trailing whitespace (Rust `str::trim_end`). -/
def trimEnd (cs : List Char) : List Char :=
  (cs.reverse.dropWhile Char.isWhitespace).reverse

/-- Split a line at its first colon (Rust `str::splitn(2, ":")` followed by
two `next().unwrap()` calls); `none` when the line has no colon (the second
`unwrap` would panic). -/
def splitFirstColon : List Char → Option (List Char × List Char)
  | [] => none
  | c :: cs =>
    if c = ':' then some ([], cs)
    else (splitFirstColon cs).map (fun p => (c :: p.1, p.2))

/-- Parse one line of a page file into an entry (the loop body of
`Block::load`): trim trailing whitespace, split at the first colon, parse
the decimal hash (`BigUint::from_str(...).unwrap()`), deserialize the tuple
(`parse_using_types(...).expect(...)`); any failure is a panic, embedded as
`none`. -/
def loadLine (des : List Char → Option Tuple) (line : List Char) :
    Option (Nat × Tuple) := do
  let p ← splitFirstColon (trimEnd line)
  let h ← parseNat p.1
  let t ← des p.2
  pure (h, t)

/-- Source: `Block::load`.  Rebuilds the in-memory entry list from all
lines of the file in order, and sets the cached `len` to the number of
lines read. -/
def loadB (des : List Char → Option Tuple) (b : Block) : Option Block :=
  (b.file.mapM (loadLine des)).map
    (fun tuples => { b with blockContents := some tuples, len := tuples.length })

/-- Source: `impl Drop for InUseMut` — releasing a write handle always
calls `unload`. -/
def dropWriteHandle (ser : Tuple → List Char) (b : Block) : Block :=
  unloadB ser b

/-- Source: `impl Drop for InUse` — releasing a read handle decrements the
live-reader count (`fetch_sub` returns the previous value) and calls
`unload` exactly when that previous value was 1, i.e. when the count
reaches zero. -/
def dropReadHandle (ser : Tuple → List Char) (b : Block) : Block :=
  let old := b.reads
  let b' := { b with reads := b.reads - 1 }
  if old = 1 then unloadB ser b' else b'

/-- Source: `ReadInUseError`, a unit-like error type. -/
inductive ReadInUseError where
  | mk
deriving DecidableEq, Repr

/-- Source: `WriteInUseError`, a unit-like error type. -/
inductive WriteInUseError where
  | mk
deriving DecidableEq, Repr

/-- Source: `std::sync::PoisonError`, carried data irrelevant here. -/
structure PoisonError where
  unit : Unit
deriving DecidableEq, Repr

/-- Source: `impl From<PoisonError<RwLockReadGuard>> for ReadInUseError`. -/
def ReadInUseError.fromPoison : PoisonError → ReadInUseError :=
  fun _ => ReadInUseError.mk

/-- Source: `impl From<PoisonError<RwLockWriteGuard>> for WriteInUseError`. -/
def WriteInUseError.fromPoison : PoisonError → WriteInUseError :=
  fun _ => WriteInUseError.mk

/-- Source: `Block::try_get_contents`.  `poisoned` models whether the
`usage` lock is observed poisoned; in that case `self.usage.read()?`
returns early with the error converted from the poison error.  Otherwise
the reader count is incremented and the contents are materialized if
needed (the inner `Option` is `none` when the load panics). -/
def tryGetContents (des : List Char → Option Tuple) (poisoned : Bool)
    (b : Block) : Except ReadInUseError (Option Block) :=
  if poisoned then .error (ReadInUseError.fromPoison ⟨()⟩)
  else
    let b' := { b with reads := b.reads + 1 }
    .ok (match b'.blockContents with
         | some _ => some b'
         | none => loadB des b')

/-- Source: `Block::try_get_contents_mut`, analogously with
`self.usage.write()?` and `WriteInUseError`. -/
def tryGetContentsMut (des : List Char → Option Tuple) (poisoned : Bool)
    (b : Block) : Except WriteInUseError (Option Block) :=
  if poisoned then .error (WriteInUseError.fromPoison ⟨()⟩)
  else
    .ok (match b.blockContents with
         | some _ => some b
         | none => loadB des b)

/-- Source: `InUseMut::insert_tuple`.  Delegates to the contents' insert
and increments the parent block's cached `len` exactly when no previous
tuple was displaced; `none` models the panic of dereferencing an
unmaterialized block. -/
def mutInsertTuple (b : Block) (h : Nat) (t : Tuple) :
    Option (Option Tuple × Block) :=
  b.blockContents.map fun internal =>
    let r := insertIntoEntries internal h t
    (r.1, { b with blockContents := some r.2,
                   len := if r.1.isNone then b.len + 1 else b.len })

/-- Source: `InUseMut::remove_tuple`.  Decrements the cached `len` exactly
when a tuple was removed. -/
def mutRemoveTuple (b : Block) (h : Nat) : Option (Option Tuple × Block) :=
  b.blockContents.map fun internal =>
    let r := removeFromEntries internal h
    (r.1, { b with blockContents := some r.2,
                   len := if r.1.isSome then b.len - 1 else b.len })

/-- Source: `InUseMut::take_all`.  Empties the entry list and zeroes the
cached `len`. -/
def mutTakeAll (b : Block) : Option (List Tuple × Block) :=
  b.blockContents.map fun internal =>
    (internal.map Prod.snd, { b with blockContents := some [], len := 0 })

/-- Source: `InUseMut::take_all_with_key`. -/
def mutTakeAllWithKey (b : Block) : Option (List (Nat × Tuple) × Block) :=
  b.blockContents.map fun internal =>
    (internal, { b with blockContents := some [], len := 0 })

/-! ### The extendible-hashing directory (`BlockDirectory`)

The `extendible_hashing` module is declared in
`relations/tuple_storage/mod.rs` but its file is not part of the source
tree, so the directory is modelled from the specification (§3, §4.2). -/

/-- Modelled from the spec: one directory bucket — a page with its local
depth; page entries are the same `(hash, tuple)` lists as `Block`
contents. -/
structure DirPage where
  localDepth : Nat
  entries : List (Nat × Tuple)

/-- Modelled from the spec (§3 Directory): global depth `d`, an array of
`2^d` slots each naming a page, the pages, and the configured bucket
capacity.  The slot array and the page array are represented by their
indexing functions together with the number of pages; only indices below
`2^globalDepth` (resp. `numPages`) are meaningful. -/
structure BlockDirectory where
  globalDepth : Nat
  bucketSize : Nat
  slots : Nat → Nat
  numPages : Nat
  pages : Nat → DirPage

/-- Modelled from the spec (§4.2 Locate): the `d` low-order bits of the
hash index the slot array. -/
def pageIndexOf (dir : BlockDirectory) (h : Nat) : Nat :=
  dir.slots (h % 2 ^ dir.globalDepth)

/-- Modelled from the spec (§4.2 Find): locate the page, point lookup by
hash. -/
def dirLookup (dir : BlockDirectory) (h : Nat) : Option Tuple :=
  assocFind (dir.pages (pageIndexOf dir h)).entries h

/-- Replace the page stored at one index. -/
def setPage (dir : BlockDirectory) (i : Nat) (pg : DirPage) : BlockDirectory :=
  { dir with pages := fun j => if j = i then pg else dir.pages j }

/-- Modelled from the spec (§4.2 Insert, before any split): locate the
page and insert into it, returning the displaced tuple if the hash was
already present. -/
def insertRaw (dir : BlockDirectory) (h : Nat) (t : Tuple) :
    Option Tuple × BlockDirectory :=
  let p := pageIndexOf dir h
  let r := insertIntoEntries (dir.pages p).entries h t
  (r.1, setPage dir p { dir.pages p with entries := r.2 })

/-- Modelled from the spec (§4.2 step 1): double the directory — new
global depth `d+1`, every slot `i` duplicated at `i` and `i + 2^d`. -/
def doubleDir (dir : BlockDirectory) : BlockDirectory :=
  { dir with globalDepth := dir.globalDepth + 1,
             slots := fun j => dir.slots (j % 2 ^ dir.globalDepth) }

/-- Modelled from the spec (§4.2 steps 2–3): split page `p` of local depth
`l` reached by hash `h`.  A fresh sibling page receives the entries whose
bit `l` is set, both pages move to local depth `l+1`, and exactly the
slots matching the sibling's `(l+1)`-bit pattern `(h mod 2^l) + 2^l` are
repointed to the sibling. -/
def redistribute (dir : BlockDirectory) (p l h : Nat) : BlockDirectory :=
  let es := (dir.pages p).entries
  let stay := es.filter (fun e => !e.1.testBit l)
  let move := es.filter (fun e => e.1.testBit l)
  let sib := dir.numPages
  let pat := h % 2 ^ l + 2 ^ l
  { dir with
    numPages := dir.numPages + 1,
    pages := fun j =>
      if j = sib then ⟨l + 1, move⟩
      else if j = p then ⟨l + 1, stay⟩
      else dir.pages j,
    slots := fun j => if j % 2 ^ (l + 1) = pat then sib else dir.slots j }

/-- Modelled from the spec (§4.2): one full split of the page holding
hash `h` — double the directory first when the page's local depth equals
the global depth, then redistribute. -/
def splitOnce (dir : BlockDirectory) (h : Nat) : BlockDirectory :=
  let p := pageIndexOf dir h
  let l := (dir.pages p).localDepth
  let dir1 := if l = dir.globalDepth then doubleDir dir else dir
  redistribute dir1 p l h

/-- Modelled from the spec (§4.2 step 4): splitting is recursive until the
page holding the inserted hash is within capacity (after a split, only a
page containing the inserted entry can still exceed capacity).  The
unbounded recursion of the spec is embedded with explicit fuel; `none`
means the fuel was exhausted before the insert completed. -/
def fixupLoop (h : Nat) : Nat → BlockDirectory → Option BlockDirectory
  | 0, dir =>
    if (dir.pages (pageIndexOf dir h)).entries.length ≤ dir.bucketSize
    then some dir else none
  | fuel + 1, dir =>
    if (dir.pages (pageIndexOf dir h)).entries.length ≤ dir.bucketSize
    then some dir
    else fixupLoop h fuel (splitOnce dir h)

/-- Modelled from the spec (§4.2 Insert): locate, insert, then split while
over capacity. -/
def dirInsert (dir : BlockDirectory) (h : Nat) (t : Tuple) (fuel : Nat) :
    Option (Option Tuple × BlockDirectory) :=
  let r := insertRaw dir h t
  (fixupLoop h fuel r.2).map (fun d => (r.1, d))

/-- Modelled from the spec (§3 Lifecycles): a fresh directory has global
depth 0 and a single empty page of local depth 0. -/
def freshDirectory (capacity : Nat) : BlockDirectory :=
  { globalDepth := 0, bucketSize := capacity,
    slots := fun _ => 0, numPages := 1,
    pages := fun _ => ⟨0, []⟩ }

/-- Well-formedness of a directory, the standard extendible-hashing
invariant (spec §3): every meaningful slot names a real page; local depths
are bounded by the global depth; the slots referencing a page are exactly
those matching one `localDepth`-bit pattern; every entry lives in the page
its hash locates; and entry hashes are unique within a page. -/
def DirWF (dir : BlockDirectory) : Prop :=
  (∀ j < 2 ^ dir.globalDepth, dir.slots j < dir.numPages) ∧
  (∀ i < dir.numPages, (dir.pages i).localDepth ≤ dir.globalDepth) ∧
  (∀ i < dir.numPages, ∃ p0 < 2 ^ (dir.pages i).localDepth,
    ∀ j < 2 ^ dir.globalDepth,
      (dir.slots j = i ↔ j % 2 ^ (dir.pages i).localDepth = p0)) ∧
  (∀ i < dir.numPages, ∀ e ∈ (dir.pages i).entries,
    dir.slots (e.1 % 2 ^ dir.globalDepth) = i) ∧
  (∀ i < dir.numPages, ((dir.pages i).entries.map Prod.fst).Nodup)

/-- The capacity bound of all pages of a directory (spec §3 invariant). -/
def AllWithinCap (dir : BlockDirectory) : Prop :=
  ∀ i < dir.numPages, (dir.pages i).entries.length ≤ dir.bucketSize

/-- What a completed insert must guarantee (spec §3 invariant and §8 split
correctness): every page within capacity, lookups of other hashes
unchanged, and the inserted tuple found under its hash. -/
def InsertSpec (dir : BlockDirectory) (h : Nat) (t : Tuple) :
    Option (Option Tuple × BlockDirectory) → Prop
  | none => True
  | some (_, d') =>
    AllWithinCap d' ∧
    (∀ h', h' ≠ h → dirLookup d' h' = dirLookup dir h') ∧
    dirLookup d' h = some t

/-! ### The façade (`TupleStorage`) -/

/-- Source: `TupleInsertionError`. -/
inductive TupleInsertionError where
  | primaryKeyPresent
  | incorrectTypes (positions : List Nat)
deriving DecidableEq, Repr

/-- The outcome of Rust code that may `panic!` (here via
`unimplemented!()`). -/
inductive PanicOr (α : Type) where
  | panicked
  | ok (a : α)
deriving DecidableEq, Repr

/-- Source: `TupleStorage` — the relation's declared types, the tracked
logical count `len`, and the backing directory.  The primary-key
definition only feeds the external hash function, which is passed
explicitly to `insert`. -/
structure TupleStorage where
  relation : List Ty
  len : Nat
  trueStorage : BlockDirectory

/-- Source: `TupleStorage::new` — `len` starts at 0 and the directory is
created with bucket capacity 4096. -/
def TupleStorage.new (relation : List Ty) : TupleStorage :=
  { relation := relation, len := 0, trueStorage := freshDirectory 4096 }

/-- Source: `TupleStorage::insert`.  Hashes the tuple's primary key with
the external hash function and delegates to the directory insert, wrapping
the result in `Ok`; the tracked `len` field is not touched and no type
validation is performed.  The outer `Option` is the directory fuel. -/
def TupleStorage.insert (hashFn : Tuple → Nat) (s : TupleStorage)
    (t : Tuple) (fuel : Nat) :
    Option (Except TupleInsertionError (Option Tuple) × TupleStorage) :=
  (dirInsert s.trueStorage (hashFn t) t fuel).map
    (fun r => (.ok r.1, { s with trueStorage := r.2 }))

/-- Source: `TupleStorage::len`. -/
def TupleStorage.lenOf (s : TupleStorage) : Nat := s.len

/-- Source: `TupleStorage::remove` — the body is `unimplemented!()`, an
unconditional panic. -/
def TupleStorage.remove (_s : TupleStorage) (_primaryKey : List Value) :
    PanicOr (Except Unit Tuple) :=
  .panicked

/-- Source: `TupleStorage::find_by_primary` — the body is
`unimplemented!()`, an unconditional panic. -/
def TupleStorage.findByPrimary (_s : TupleStorage) (_primaryKey : List Value) :
    PanicOr (Except Unit Tuple) :=
  .panicked

/-! ### Query conditions (`rad_db-algebra/src/query/conditions.rs`) -/

/-- Source: `Identifier` (hierarchical name); its content is irrelevant to
`split_and`, only equality matters. -/
def Identifier := List (List Char)
deriving DecidableEq, Repr

/-- Source: `Operand`.  The `f64` payload of `Float` is embedded opaquely
as its bit pattern. -/
inductive Operand where
  | idOp (id : Identifier)
  | signedNumber (n : Int)
  | unsignedNumber (n : Nat)
  | float (bits : Nat)
  | stringOp (s : List Char)
  | charOp (c : Char)
  | boolean (b : Bool)
deriving DecidableEq, Repr

mutual
/-- Source: `ConditionOperation`. -/
inductive ConditionOperation where
  | equals (op : Operand)
  | nequals (op : Operand)
  | and (l : ConditionOperation) (r : Condition)
  | or (l : ConditionOperation) (r : Condition)

/-- Source: `Condition` — a base identifier plus an operation. -/
inductive Condition where
  | mk (base : Identifier) (operation : ConditionOperation)
end

/-- Source: `Condition::new`. -/
def Condition.base : Condition → Identifier
  | .mk b _ => b

/-- Source field accessor. -/
def Condition.operation : Condition → ConditionOperation
  | .mk _ op => op

/-- Source: `Condition::and` — conjoins two conditions, keeping the left
condition's base. -/
def Condition.cAnd (left right : Condition) : Condition :=
  .mk left.base (.and left.operation right)

/-- Whether a condition's top-level operation is an `And`. -/
def Condition.topIsAnd : Condition → Bool
  | .mk _ (.and _ _) => true
  | _ => false

/-- Source: `Condition::split_and`.  The Rust loop walks the right spine:
for each `And(inner, next)` it recursively splits `Condition(base, inner)`
and appends, then continues with `next`; the final non-`And` condition is
pushed last. -/
def Condition.splitAnd : Condition → List Condition
  | .mk base (.and inner next) =>
    (Condition.mk base inner).splitAnd ++ next.splitAnd
  | c => [c]

/-- Right-nested conjunction chain `c₁ AND (c₂ AND (… AND cₙ))` built with
`Condition::and`. -/
def rightChain : Condition → List Condition → Condition
  | c, [] => c
  | c, d :: ds => Condition.cAnd c (rightChain d ds)

/-- The cached-length invariant of a block (implicit in the source): while
the contents are materialized, `len` equals the number of entries. -/
def LenInv (b : Block) : Prop :=
  ∀ es, b.blockContents = some es → b.len = es.length

/-! ## Lemmas about page entry lists -/

theorem insertIntoEntries_fst (es : List (Nat × Tuple)) (h : Nat) (t : Tuple) :
    (insertIntoEntries es h t).1 = assocFind es h := by
  induction es with
  | nil => rfl
  | cons e rest ih =>
    obtain ⟨h', t'⟩ := e
    by_cases hh : h' = h <;> simp [insertIntoEntries, assocFind, hh, ih]

theorem insertIntoEntries_not_found (es : List (Nat × Tuple)) (h : Nat)
    (t : Tuple) (hn : assocFind es h = none) :
    insertIntoEntries es h t = (none, es ++ [(h, t)]) := by
  induction es with
  | nil => rfl
  | cons e rest ih =>
    obtain ⟨h', t'⟩ := e
    by_cases hh : h' = h
    · simp [assocFind, hh] at hn
    · simp only [assocFind, if_neg hh] at hn
      simp [insertIntoEntries, hh, ih hn]

theorem insertIntoEntries_keys_of_found (es : List (Nat × Tuple)) (h : Nat)
    (t told : Tuple) (hf : assocFind es h = some told) :
    ((insertIntoEntries es h t).2).map Prod.fst = es.map Prod.fst := by
  induction es with
  | nil => simp [assocFind] at hf
  | cons e rest ih =>
    obtain ⟨h', t'⟩ := e
    by_cases hh : h' = h
    · simp [insertIntoEntries, hh]
    · simp only [assocFind, if_neg hh] at hf
      simp [insertIntoEntries, hh, ih hf]

theorem assocFind_insert_self (es : List (Nat × Tuple)) (h : Nat) (t : Tuple) :
    assocFind (insertIntoEntries es h t).2 h = some t := by
  induction es with
  | nil => simp [insertIntoEntries, assocFind]
  | cons e rest ih =>
    obtain ⟨h', t'⟩ := e
    by_cases hh : h' = h <;> simp [insertIntoEntries, assocFind, hh, ih]

theorem assocFind_insert_other (es : List (Nat × Tuple)) (h : Nat) (t : Tuple)
    (h' : Nat) (hne : h' ≠ h) :
    assocFind (insertIntoEntries es h t).2 h' = assocFind es h' := by
  have hne' : ¬h = h' := fun e => hne e.symm
  induction es with
  | nil =>
    simp only [insertIntoEntries, assocFind]
    rw [if_neg hne']
  | cons e rest ih =>
    obtain ⟨h1, t1⟩ := e
    by_cases hh : h1 = h
    · subst hh
      simp only [insertIntoEntries, if_pos rfl, assocFind]
      rw [if_neg hne', if_neg hne']
    · simp only [insertIntoEntries, if_neg hh, assocFind]
      by_cases hh' : h1 = h' <;> simp [hh', ih]

theorem insertIntoEntries_length_of_found (es : List (Nat × Tuple)) (h : Nat)
    (t told : Tuple) (hf : assocFind es h = some told) :
    ((insertIntoEntries es h t).2).length = es.length := by
  have := insertIntoEntries_keys_of_found es h t told hf
  have h1 : ((insertIntoEntries es h t).2).length
      = (((insertIntoEntries es h t).2).map Prod.fst).length := by simp
  rw [h1, this, List.length_map]

theorem assocFind_eq_none_iff (es : List (Nat × Tuple)) (h : Nat) :
    assocFind es h = none ↔ h ∉ es.map Prod.fst := by
  induction es with
  | nil => simp [assocFind]
  | cons e rest ih =>
    obtain ⟨h', t'⟩ := e
    by_cases hh : h' = h
    · simp [assocFind, hh]
    · have hh' : ¬h = h' := fun e => hh e.symm
      simp [assocFind, hh, ih, hh']

theorem assocFind_mem (es : List (Nat × Tuple)) (h : Nat) (t : Tuple)
    (hf : assocFind es h = some t) : (h, t) ∈ es := by
  induction es with
  | nil => simp [assocFind] at hf
  | cons e rest ih =>
    obtain ⟨h', t'⟩ := e
    by_cases hh : h' = h
    · subst hh
      simp [assocFind] at hf
      simp [hf]
    · simp only [assocFind, if_neg hh] at hf
      exact List.mem_cons_of_mem _ (ih hf)

theorem assocFind_of_mem (es : List (Nat × Tuple)) (h : Nat) (t : Tuple)
    (hnd : (es.map Prod.fst).Nodup) (hm : (h, t) ∈ es) :
    assocFind es h = some t := by
  induction es with
  | nil => simp at hm
  | cons e rest ih =>
    obtain ⟨h', t'⟩ := e
    simp only [List.map_cons, List.nodup_cons] at hnd
    rcases List.mem_cons.mp hm with he | hm'
    · injection he with e1 e2
      subst e1
      subst e2
      simp [assocFind]
    · by_cases hh : h' = h
      · exfalso
        subst hh
        exact hnd.1 (List.mem_map.mpr ⟨(h', t), hm', rfl⟩)
      · simp only [assocFind, if_neg hh]
        exact ih hnd.2 hm'

theorem removeFromEntries_fst (es : List (Nat × Tuple)) (h : Nat) :
    (removeFromEntries es h).1 = assocFind es h := by
  induction es with
  | nil => rfl
  | cons e rest ih =>
    obtain ⟨h', t'⟩ := e
    by_cases hh : h' = h <;> simp [removeFromEntries, assocFind, hh, ih]

theorem removeFromEntries_none (es : List (Nat × Tuple)) (h : Nat)
    (hn : (removeFromEntries es h).1 = none) :
    (removeFromEntries es h).2 = es := by
  induction es with
  | nil => rfl
  | cons e rest ih =>
    obtain ⟨h', t'⟩ := e
    by_cases hh : h' = h
    · simp [removeFromEntries, hh] at hn
    · simp only [removeFromEntries, if_neg hh] at hn ⊢
      simp [ih hn]

theorem removeFromEntries_length_of_found (es : List (Nat × Tuple)) (h : Nat)
    (t : Tuple) (hf : (removeFromEntries es h).1 = some t) :
    ((removeFromEntries es h).2).length + 1 = es.length := by
  induction es with
  | nil => simp [removeFromEntries] at hf
  | cons e rest ih =>
    obtain ⟨h', t'⟩ := e
    by_cases hh : h' = h
    · simp [removeFromEntries, hh]
    · simp only [removeFromEntries, if_neg hh] at hf ⊢
      simp only [List.length_cons]
      rw [← ih hf]

/-! ## Claim C3: page-level insert semantics -/

/-- Claim C3: inserting through a `WriteHandle` when an entry with the
hash exists replaces the stored tuple in place (same key sequence, same
length), returns the previous tuple, and leaves the block's cached `len`
unchanged; when no such entry exists it appends the pair at the end,
returns `none`, and increments the cached `len` by one. -/
theorem claim_C3 (b : Block) (es : List (Nat × Tuple)) (h : Nat) (t : Tuple)
    (hb : b.blockContents = some es) :
    (∀ told, assocFind es h = some told →
      ∃ b', mutInsertTuple b h t = some (some told, b') ∧
        b'.len = b.len ∧
        ∃ es', b'.blockContents = some es' ∧
          es'.length = es.length ∧
          es'.map Prod.fst = es.map Prod.fst ∧
          assocFind es' h = some t ∧
          ∀ h', h' ≠ h → assocFind es' h' = assocFind es h') ∧
    (assocFind es h = none →
      mutInsertTuple b h t =
        some (none, { b with blockContents := some (es ++ [(h, t)]),
                             len := b.len + 1 })) := by
  constructor
  · intro told hf
    have hfst : (insertIntoEntries es h t).1 = some told := by
      rw [insertIntoEntries_fst]
      exact hf
    refine ⟨{ b with blockContents := some (insertIntoEntries es h t).2 },
      ?_, rfl, (insertIntoEntries es h t).2, rfl, ?_, ?_, ?_, ?_⟩
    · simp [mutInsertTuple, hb, hfst]
    · exact insertIntoEntries_length_of_found es h t told hf
    · exact insertIntoEntries_keys_of_found es h t told hf
    · exact assocFind_insert_self es h t
    · exact fun h' hne => assocFind_insert_other es h t h' hne
  · intro hn
    simp [mutInsertTuple, hb, insertIntoEntries_not_found es h t hn]

/-- Witness for C3 at a concrete block: both branches exercised. -/
theorem claim_C3_witness :
    (∃ b', mutInsertTuple
        ⟨1, some [(5, [Value.intV 1])], [], 0⟩ 5 [Value.intV 2] =
          some (some [Value.intV 1], b') ∧ b'.len = 1) ∧
    mutInsertTuple ⟨1, some [(5, [Value.intV 1])], [], 0⟩ 7 [Value.intV 2] =
      some (none, ⟨2, some [(5, [Value.intV 1]), (7, [Value.intV 2])], [], 0⟩) := by
  constructor
  · obtain ⟨b', hb', hlen, -⟩ :=
      (claim_C3 ⟨1, some [(5, [Value.intV 1])], [], 0⟩ [(5, [Value.intV 1])] 5
        [Value.intV 2] rfl).1 [Value.intV 1] (by decide)
    exact ⟨b', hb', hlen⟩
  · exact (claim_C3 ⟨1, some [(5, [Value.intV 1])], [], 0⟩ [(5, [Value.intV 1])] 7
      [Value.intV 2] rfl).2 (by decide)

/-! ## Claim C5: handle release semantics -/

/-- Claim C5: releasing a write handle always flushes the current entry
list to the file (one line per entry, in order) and discards the in-memory
copy; releasing a read handle decrements the live-reader count, flushing
and discarding exactly when the count reaches zero, and leaving the
in-memory copy and the file untouched otherwise. -/
theorem claim_C5 (ser : Tuple → List Char) :
    (∀ b es, b.blockContents = some es →
      dropWriteHandle ser b =
        { b with blockContents := none, file := es.map (entryLine ser) }) ∧
    (∀ b : Block, (dropReadHandle ser b).reads = b.reads - 1) ∧
    (∀ b es, b.blockContents = some es → b.reads = 1 →
      dropReadHandle ser b =
        { b with reads := 0, blockContents := none,
                 file := es.map (entryLine ser) }) ∧
    (∀ b : Block, b.reads ≠ 1 →
      (dropReadHandle ser b).blockContents = b.blockContents ∧
      (dropReadHandle ser b).file = b.file) := by
  refine ⟨?_, ?_, ?_, ?_⟩
  · intro b es hb
    simp [dropWriteHandle, unloadB, hb]
  · intro b
    by_cases hr : b.reads = 1
    · simp only [dropReadHandle, if_pos hr, unloadB]
      cases hb : b.blockContents <;> simp [hr]
    · simp [dropReadHandle, hr]
  · intro b es hb hr
    simp [dropReadHandle, hr, unloadB, hb]
  · intro b hr
    simp [dropReadHandle, hr]

/-- Witness for C5 at a concrete block with one reader and one entry. -/
theorem claim_C5_witness :
    dropWriteHandle (fun _ => ['x']) ⟨1, some [(3, [Value.boolV true])], [], 2⟩ =
      ⟨1, none, [entryLine (fun _ => ['x']) (3, [Value.boolV true])], 2⟩ ∧
    dropReadHandle (fun _ => ['x']) ⟨1, some [(3, [Value.boolV true])], [], 1⟩ =
      ⟨1, none, [entryLine (fun _ => ['x']) (3, [Value.boolV true])], 0⟩ := by
  constructor
  · exact (claim_C5 (fun _ => ['x'])).1 ⟨1, some [(3, [Value.boolV true])], [], 2⟩
      [(3, [Value.boolV true])] rfl
  · exact (claim_C5 (fun _ => ['x'])).2.2.1 ⟨1, some [(3, [Value.boolV true])], [], 1⟩
      [(3, [Value.boolV true])] rfl rfl

/-! ## Claim C8: poisoned-lock acquisition -/

/-- Claim C8: when the page's lock is observed poisoned, both fallible
acquisition operations return the error value built by the `From`
conversion from the poison error, without repairing or retrying. -/
theorem claim_C8 :
    (∀ (des : List Char → Option Tuple) (b : Block),
      tryGetContents des true b = .error (ReadInUseError.fromPoison ⟨()⟩)) ∧
    (∀ (des : List Char → Option Tuple) (b : Block),
      tryGetContentsMut des true b = .error (WriteInUseError.fromPoison ⟨()⟩)) :=
  ⟨fun _ _ => rfl, fun _ _ => rfl⟩

/-! ## Claim C9: the cached length invariant -/

/-- Claim C9: for a materialized block the cached `len` equals the number
of in-memory entries, and this invariant is established by `load` and
preserved by every write-handle operation (`insert_tuple`, `remove_tuple`,
`take_all`, `take_all_with_key`). -/
theorem claim_C9 :
    (∀ (des : List Char → Option Tuple) (b b' : Block),
      loadB des b = some b' → LenInv b') ∧
    (∀ (b : Block) (h : Nat) (t : Tuple) rb, LenInv b →
      mutInsertTuple b h t = some rb → LenInv rb.2) ∧
    (∀ (b : Block) (h : Nat) rb, LenInv b →
      mutRemoveTuple b h = some rb → LenInv rb.2) ∧
    (∀ (b : Block) rb, LenInv b → mutTakeAll b = some rb → LenInv rb.2) ∧
    (∀ (b : Block) rb, LenInv b →
      mutTakeAllWithKey b = some rb → LenInv rb.2) := by
  refine ⟨?_, ?_, ?_, ?_, ?_⟩
  · intro des b b' hload es hes
    rw [loadB, Option.map_eq_some'] at hload
    obtain ⟨tuples, -, rfl⟩ := hload
    simp at hes
    simp [hes]
  · intro b h t rb hinv hins es hes
    cases hb : b.blockContents with
    | none => simp [mutInsertTuple, hb] at hins
    | some es0 =>
      rw [mutInsertTuple, hb, Option.map_some'] at hins
      injection hins with hins
      subst hins
      simp only [Option.some.injEq] at hes
      subst hes
      cases hres : (insertIntoEntries es0 h t).1 with
      | none =>
        rw [insertIntoEntries_fst] at hres
        simp [insertIntoEntries_not_found es0 h t hres, hinv es0 hb]
      | some told =>
        simp only [hres, Option.isNone_some, Bool.false_eq_true, if_false]
        rw [insertIntoEntries_length_of_found es0 h t told
          (insertIntoEntries_fst es0 h t ▸ hres)]
        exact hinv es0 hb
  · intro b h rb hinv hrem es hes
    cases hb : b.blockContents with
    | none => simp [mutRemoveTuple, hb] at hrem
    | some es0 =>
      rw [mutRemoveTuple, hb, Option.map_some'] at hrem
      injection hrem with hrem
      subst hrem
      simp only [Option.some.injEq] at hes
      subst hes
      cases hres : (removeFromEntries es0 h).1 with
      | none =>
        simp [hres, removeFromEntries_none es0 h hres, hinv es0 hb]
      | some told =>
        have hlen := removeFromEntries_length_of_found es0 h told hres
        simp only [hres, Option.isSome_some, if_true]
        rw [hinv es0 hb]
        omega
  · intro b rb hinv htake es hes
    cases hb : b.blockContents with
    | none => simp [mutTakeAll, hb] at htake
    | some es0 =>
      rw [mutTakeAll, hb, Option.map_some'] at htake
      injection htake with htake
      subst htake
      simp only [Option.some.injEq] at hes
      subst hes
      rfl
  · intro b rb hinv htake es hes
    cases hb : b.blockContents with
    | none => simp [mutTakeAllWithKey, hb] at htake
    | some es0 =>
      rw [mutTakeAllWithKey, hb, Option.map_some'] at htake
      injection htake with htake
      subst htake
      simp only [Option.some.injEq] at hes
      subst hes
      rfl

/-- Witness for C9: a concrete load establishes the invariant and a
concrete insert preserves it. -/
theorem claim_C9_witness :
    LenInv ⟨1, some [(2, [Value.intV 5])], [], 0⟩ ∧
    ∃ rb, mutInsertTuple ⟨1, some [(2, [Value.intV 5])], [], 0⟩ 9 [] =
      some rb ∧ LenInv rb.2 := by
  have hinv : LenInv ⟨1, some [(2, [Value.intV 5])], [], 0⟩ := by
    intro es hes
    simp at hes
    subst hes
    rfl
  refine ⟨hinv, ?_⟩
  cases hstep : mutInsertTuple ⟨1, some [(2, [Value.intV 5])], [], 0⟩ 9 [] with
  | none => simp [mutInsertTuple] at hstep
  | some rb =>
    exact ⟨rb, rfl, claim_C9.2.1 _ 9 [] rb hinv hstep⟩


/-! ## Claims C1, C6, C7: façade behavior vs the spec -/

/-- Claim C1 (code bug): a successful insert into a fresh `TupleStorage`
leaves `len()` at 0 — `TupleStorage::insert` never updates the tracked
count, so after `n ≥ 1` inserts with distinct hashes `len()` is `0 ≠ n`. -/
theorem claim_C1_bug :
    (TupleStorage.insert (fun _ => 0) (TupleStorage.new [Ty.intT])
        [Value.intV 7] 1).map (fun r => (r.1, r.2.lenOf)) =
      some (.ok none, 0) := rfl

/-- Claim C6 (code bug): `TupleStorage::remove` and
`TupleStorage::find_by_primary` are `unimplemented!()` stubs that panic
for every key, absent or not — no typed "not found" result is ever
produced — even though the block layer's remove of an absent hash is typed
and leaves the entry list unchanged. -/
theorem claim_C6_bug :
    TupleStorage.remove (TupleStorage.new [Ty.intT]) [Value.intV 1] =
      PanicOr.panicked ∧
    TupleStorage.findByPrimary (TupleStorage.new [Ty.intT]) [Value.intV 1] =
      PanicOr.panicked ∧
    removeFromEntries [(1, [Value.intV 3])] 5 = (none, [(1, [Value.intV 3])]) :=
  ⟨rfl, rfl, rfl⟩

/-- Claim C7 (code bug): a tuple whose value does not match the declared
attribute type (mismatch at position 0) is nevertheless inserted
successfully — `TupleStorage::insert` performs no type validation, and the
`IncorrectTypes` variant is never constructed anywhere in the source. -/
theorem claim_C7_bug :
    mismatchPositions [Ty.intT] [Value.strV ['a']] = [0] ∧
    (TupleStorage.insert (fun _ => 0) (TupleStorage.new [Ty.intT])
        [Value.strV ['a']] 1).map (fun r => r.1) =
      some (.ok none) :=
  ⟨rfl, rfl⟩

/-! ## Claim C10: splitting conjunctions -/

theorem splitAnd_of_not_and (c : Condition) (hc : c.topIsAnd = false) :
    c.splitAnd = [c] := by
  obtain ⟨base, op⟩ := c
  cases op with
  | equals o =>
    rw [Condition.splitAnd]
    intro b' l r h
    injection h with h1 h2
    exact ConditionOperation.noConfusion h2
  | nequals o =>
    rw [Condition.splitAnd]
    intro b' l r h
    injection h with h1 h2
    exact ConditionOperation.noConfusion h2
  | and l r => simp [Condition.topIsAnd] at hc
  | or l r =>
    rw [Condition.splitAnd]
    intro b' l r h
    injection h with h1 h2
    exact ConditionOperation.noConfusion h2

theorem splitAnd_nonempty_nonAnd (c : Condition) :
    c.splitAnd ≠ [] ∧ ∀ x ∈ c.splitAnd, x.topIsAnd = false := by
  induction c using Condition.splitAnd.induct with
  | case1 base inner next ih1 ih2 =>
    rw [Condition.splitAnd]
    constructor
    · intro hemp
      exact ih1.1 (List.append_eq_nil.mp hemp).1
    · intro x hx
      rcases List.mem_append.mp hx with hx1 | hx2
      · exact ih1.2 x hx1
      · exact ih2.2 x hx2
  | case2 c hne =>
    have hc : c.topIsAnd = false := by
      obtain ⟨base, op⟩ := c
      cases op with
      | equals o => rfl
      | nequals o => rfl
      | and l r => exact absurd rfl (hne base l r)
      | or l r => rfl
    rw [splitAnd_of_not_and c hc]
    simp [hc]

theorem splitAnd_rightChain (c : Condition) (cs : List Condition)
    (hall : ∀ x ∈ c :: cs, x.topIsAnd = false) :
    (rightChain c cs).splitAnd = c :: cs := by
  induction cs generalizing c with
  | nil => exact splitAnd_of_not_and c (hall c (List.mem_cons_self c []))
  | cons d ds ih =>
    have hc : c.topIsAnd = false := hall c (List.mem_cons_self c (d :: ds))
    have hrest : ∀ x ∈ d :: ds, x.topIsAnd = false := by
      intro x hx
      exact hall x (List.mem_cons_of_mem c hx)
    obtain ⟨base, op⟩ := c
    show (Condition.mk base (.and op (rightChain d ds))).splitAnd = _
    rw [Condition.splitAnd, splitAnd_of_not_and (.mk base op) hc, ih d hrest]
    rfl

/-- Claim C10: `split_and` always returns a non-empty list none of whose
elements has a top-level `And`, and on a right-nested conjunction chain
`c₁ AND (c₂ AND (… AND cₙ))` of non-`And` conjuncts it returns exactly
`[c₁, …, cₙ]` in left-to-right order. -/
theorem claim_C10 :
    (∀ c : Condition, c.splitAnd ≠ [] ∧ ∀ x ∈ c.splitAnd, x.topIsAnd = false) ∧
    (∀ (c : Condition) (cs : List Condition),
      (∀ x ∈ c :: cs, x.topIsAnd = false) →
      (rightChain c cs).splitAnd = c :: cs) :=
  ⟨splitAnd_nonempty_nonAnd, splitAnd_rightChain⟩

/-- Witness for C10 on the two-conjunct chain `(a = 1) AND (b = 2)`. -/
theorem claim_C10_witness :
    (rightChain (.mk [['a']] (.equals (.unsignedNumber 1)))
        [.mk [['b']] (.equals (.unsignedNumber 2))]).splitAnd =
      [.mk [['a']] (.equals (.unsignedNumber 1)),
       .mk [['b']] (.equals (.unsignedNumber 2))] :=
  claim_C10.2 (.mk [['a']] (.equals (.unsignedNumber 1)))
    [.mk [['b']] (.equals (.unsignedNumber 2))]
    (by
      intro x hx
      rcases List.mem_cons.mp hx with h | hx'
      · subst h
        rfl
      · rcases List.mem_cons.mp hx' with h | hx''
        · subst h
          rfl
        · simp at hx'')

/-! ## Claim C2: flush/load round trip -/

theorem parseNatAux_append (acc : Nat) (xs ys : List Char) :
    parseNatAux acc (xs ++ ys) =
      (parseNatAux acc xs).bind (fun a => parseNatAux a ys) := by
  induction xs generalizing acc with
  | nil => rfl
  | cons c cs ih =>
    simp only [List.cons_append, parseNatAux]
    cases parseDigit c with
    | none => rfl
    | some d => exact ih (acc * 10 + d)

theorem parseDigit_digitChar (d : Nat) (hd : d < 10) :
    parseDigit (digitChar d) = some d := by
  interval_cases d <;> decide

theorem digitChar_ne_colon (d : Nat) (hd : d < 10) : digitChar d ≠ ':' := by
  interval_cases d <;> decide

theorem digitChar_not_ws (d : Nat) (hd : d < 10) :
    (digitChar d).isWhitespace = false := by
  interval_cases d <;> decide

theorem natDigitsRev_mem (n : Nat) :
    ∀ c ∈ natDigitsRev n, ∃ d, d < 10 ∧ c = digitChar d := by
  induction n using natDigitsRev.induct with
  | case1 => intro c hc; rw [natDigitsRev] at hc; simp at hc
  | case2 n hn ih =>
    intro c hc
    rw [natDigitsRev, if_neg hn] at hc
    rcases List.mem_cons.mp hc with h | h
    · exact ⟨n % 10, Nat.mod_lt n (by omega), h⟩
    · exact ih c h

theorem natRepr_mem (n : Nat) :
    ∀ c ∈ natRepr n, ∃ d, d < 10 ∧ c = digitChar d := by
  intro c hc
  rw [natRepr] at hc
  by_cases hn : n = 0
  · rw [if_pos hn] at hc
    simp at hc
    exact ⟨0, by omega, hc⟩
  · rw [if_neg hn, List.mem_reverse] at hc
    exact natDigitsRev_mem n c hc

theorem natRepr_ne_colon (n : Nat) : ':' ∉ natRepr n := by
  intro hc
  obtain ⟨d, hd, he⟩ := natRepr_mem n ':' hc
  exact digitChar_ne_colon d hd he.symm

theorem parseNatAux_digitsRev (n : Nat) :
    ∀ acc, parseNatAux acc (natDigitsRev n).reverse =
      some (acc * 10 ^ (natDigitsRev n).length + n) := by
  induction n using natDigitsRev.induct with
  | case1 =>
    intro acc
    rw [natDigitsRev]
    simp [parseNatAux]
  | case2 n hn ih =>
    intro acc
    rw [natDigitsRev, if_neg hn]
    simp only [List.reverse_cons, List.length_cons]
    rw [parseNatAux_append, ih acc]
    simp only [Option.bind_some, parseNatAux,
      parseDigit_digitChar (n % 10) (Nat.mod_lt n (by omega)), Option.some_bind]
    have : (acc * 10 ^ (natDigitsRev (n / 10)).length + n / 10) * 10 + n % 10
        = acc * 10 ^ ((natDigitsRev (n / 10)).length + 1) + n := by
      rw [pow_succ]
      have hdm := Nat.div_add_mod n 10
      ring_nf
      omega
    rw [this]

theorem parseNat_natRepr (n : Nat) : parseNat (natRepr n) = some n := by
  by_cases hn : n = 0
  · subst hn
    rfl
  · rw [natRepr, if_neg hn]
    have hne : natDigitsRev n ≠ [] := by
      rw [natDigitsRev, if_neg hn]
      exact List.cons_ne_nil _ _
    obtain ⟨c, cs, hcs⟩ := List.exists_cons_of_ne_nil (by
      intro h
      exact hne (List.reverse_eq_nil_iff.mp h))
    rw [hcs, parseNat, ← hcs, parseNatAux_digitsRev n 0]
    · simp
    · simp

theorem dropWhileLengthLe (p : Char → Bool) (l : List Char) :
    (List.dropWhile p l).length ≤ l.length := by
  induction l with
  | nil => simp
  | cons c cs ih =>
    rw [List.dropWhile_cons]
    by_cases h : p c = true
    · rw [if_pos h]
      exact Nat.le_succ_of_le ih
    · rw [if_neg h]

theorem dropWhile_append_of_ne (p : Char → Bool) (l rest : List Char)
    (hl : List.dropWhile p l = l) (hne : l ≠ []) :
    List.dropWhile p (l ++ rest) = l ++ rest := by
  cases l with
  | nil => exact absurd rfl hne
  | cons c cs =>
    have hc : p c = false := by
      cases hpc : p c
      · rfl
      · rw [List.dropWhile_cons, if_pos hpc] at hl
        have hlen := congrArg List.length hl
        have hle := dropWhileLengthLe p cs
        simp at hlen
        omega
    rw [List.cons_append, List.dropWhile_cons]
    simp [hc]

theorem trimEnd_line (a s : List Char) (hs : trimEnd s = s) :
    trimEnd (a ++ ':' :: s) = a ++ ':' :: s := by
  have hs' : List.dropWhile Char.isWhitespace s.reverse = s.reverse := by
    have h2 := congrArg List.reverse hs
    rwa [trimEnd, List.reverse_reverse] at h2
  have key : List.dropWhile Char.isWhitespace (s.reverse ++ ':' :: a.reverse)
      = s.reverse ++ ':' :: a.reverse := by
    cases hsr : s.reverse with
    | nil =>
      simp only [List.nil_append]
      rw [List.dropWhile_cons]
      have hcolon : Char.isWhitespace ':' = false := by decide
      simp [hcolon]
    | cons c cs' =>
      rw [← hsr]
      exact dropWhile_append_of_ne _ _ _ hs'
        (by rw [hsr]; exact List.cons_ne_nil c cs')
  rw [trimEnd]
  have hrev : (a ++ ':' :: s).reverse = s.reverse ++ ':' :: a.reverse := by
    simp
  rw [hrev, key]
  simp

theorem splitFirstColon_append (a b : List Char) (ha : ':' ∉ a) :
    splitFirstColon (a ++ ':' :: b) = some (a, b) := by
  induction a with
  | nil => simp [splitFirstColon]
  | cons c cs ih =>
    have hc : ¬(c = ':') := fun h => ha (h ▸ List.mem_cons_self c cs)
    simp only [List.cons_append, splitFirstColon, if_neg hc, List.append_eq]
    rw [ih (fun h => ha (List.mem_cons_of_mem c h))]
    rfl

theorem loadLine_entryLine (ser : Tuple → List Char)
    (des : List Char → Option Tuple) (e : Nat × Tuple)
    (hround : des (ser e.2) = some e.2)
    (htrim : trimEnd (ser e.2) = ser e.2) :
    loadLine des (entryLine ser e) = some e := by
  simp [loadLine, entryLine, trimEnd_line _ _ htrim,
    splitFirstColon_append _ _ (natRepr_ne_colon e.1), parseNat_natRepr, hround]

theorem mapM_entryLines (ser : Tuple → List Char)
    (des : List Char → Option Tuple) (es : List (Nat × Tuple))
    (h : ∀ e ∈ es, loadLine des (entryLine ser e) = some e) :
    (es.map (entryLine ser)).mapM (loadLine des) = some es := by
  induction es with
  | nil => rfl
  | cons e rest ih =>
    rw [List.map_cons, List.mapM_cons, h e (List.mem_cons_self e rest),
      ih (fun x hx => h x (List.mem_cons_of_mem e hx))]
    rfl

/-- Claim C2: flushing a materialized page writes exactly one line
`<hash>:<serialized-tuple>` per entry in the entries' current order (a
full truncate-and-rewrite), and loading the flushed file back rebuilds the
very same sequence of (hash, tuple) entries, splitting each line at its
first colon — provided the external serializer round-trips and emits no
trailing whitespace and no newline (the file format's implicit
assumptions). -/
theorem claim_C2 (ser : Tuple → List Char) (des : List Char → Option Tuple)
    (b : Block) (internal : List (Nat × Tuple))
    (hb : b.blockContents = some internal)
    (hround : ∀ e ∈ internal, des (ser e.2) = some e.2)
    (htrim : ∀ e ∈ internal, trimEnd (ser e.2) = ser e.2)
    (_hnl : ∀ e ∈ internal, '\n' ∉ ser e.2) :
    (unloadB ser b).file = internal.map (entryLine ser) ∧
    (loadB des (unloadB ser b)).map (fun b' => b'.blockContents) =
      some (some internal) := by
  have hfile : (unloadB ser b).file = internal.map (entryLine ser) := by
    simp [unloadB, hb]
  refine ⟨hfile, ?_⟩
  rw [loadB, hfile, mapM_entryLines ser des internal
    (fun e he => loadLine_entryLine ser des e (hround e he) (htrim e he))]
  rfl

/-- Witness for C2: a concrete page with one entry, a serializer that
emits `v` and its inverse. -/
theorem claim_C2_witness :
    (unloadB (fun _ => ['v']) ⟨1, some [(12, [Value.intV 3])], [], 0⟩).file =
      [(12, ([Value.intV 3] : Tuple))].map (entryLine (fun _ => ['v'])) ∧
    (loadB (fun s => if s = ['v'] then some [Value.intV 3] else none)
        (unloadB (fun _ => ['v']) ⟨1, some [(12, [Value.intV 3])], [], 0⟩)).map
        (fun b' => b'.blockContents) =
      some (some [(12, [Value.intV 3])]) :=
  claim_C2 (fun _ => ['v']) (fun s => if s = ['v'] then some [Value.intV 3] else none)
    ⟨1, some [(12, [Value.intV 3])], [], 0⟩ [(12, [Value.intV 3])] rfl
    (by decide) (by decide) (by decide)

/-! ## Claim C4: directory insert with splitting

Arithmetic on low-order bit patterns, then preservation of the directory
invariant by each step of the insert algorithm. -/

theorem mod_pow_mod_pow (x l d : Nat) (hld : l ≤ d) :
    x % 2 ^ d % 2 ^ l = x % 2 ^ l :=
  Nat.mod_mod_of_dvd x (pow_dvd_pow 2 hld)

theorem mod_pow_succ_decomp (x l : Nat) :
    x % 2 ^ (l + 1) = x % 2 ^ l + 2 ^ l * (x / 2 ^ l % 2) := by
  rw [pow_succ, Nat.mod_mul]

theorem mod_pow_succ_of_testBit_true (x l : Nat) (hb : x.testBit l = true) :
    x % 2 ^ (l + 1) = x % 2 ^ l + 2 ^ l := by
  rw [Nat.testBit_to_div_mod] at hb
  have hb' : x / 2 ^ l % 2 = 1 := of_decide_eq_true hb
  rw [mod_pow_succ_decomp, hb', Nat.mul_one]

theorem mod_pow_succ_of_testBit_false (x l : Nat) (hb : x.testBit l = false) :
    x % 2 ^ (l + 1) = x % 2 ^ l := by
  rw [Nat.testBit_to_div_mod] at hb
  have hb' : ¬(x / 2 ^ l % 2 = 1) := of_decide_eq_false hb
  have h2 : x / 2 ^ l % 2 < 2 := Nat.mod_lt _ (by omega)
  have hb0 : x / 2 ^ l % 2 = 0 := by omega
  rw [mod_pow_succ_decomp, hb0, Nat.mul_zero, Nat.add_zero]

theorem testBit_eq_of_mod_pow_succ_eq (x y l : Nat)
    (hxy : x % 2 ^ (l + 1) = y % 2 ^ (l + 1)) :
    x.testBit l = y.testBit l := by
  have hx := mod_pow_succ_decomp x l
  have hy := mod_pow_succ_decomp y l
  have hxl : x % 2 ^ l < 2 ^ l := Nat.mod_lt _ (Nat.pos_pow_of_pos l (by omega))
  have hyl : y % 2 ^ l < 2 ^ l := Nat.mod_lt _ (Nat.pos_pow_of_pos l (by omega))
  have hx2 : x / 2 ^ l % 2 < 2 := Nat.mod_lt _ (by omega)
  have hy2 : y / 2 ^ l % 2 < 2 := Nat.mod_lt _ (by omega)
  rw [Nat.testBit_to_div_mod, Nat.testBit_to_div_mod]
  have hpos : 0 < 2 ^ l := Nat.pos_pow_of_pos l (by omega)
  have ha : x / 2 ^ l % 2 = 0 ∨ x / 2 ^ l % 2 = 1 := by omega
  have hb : y / 2 ^ l % 2 = 0 ∨ y / 2 ^ l % 2 = 1 := by omega
  have : x / 2 ^ l % 2 = y / 2 ^ l % 2 := by
    rcases ha with h1 | h1 <;> rcases hb with h2 | h2 <;>
      rw [h1] at hx <;> rw [h2] at hy <;> omega
  rw [this]

theorem assocFind_filter_key (pred : Nat → Bool) (es : List (Nat × Tuple))
    (h : Nat) (hp : pred h = true) :
    assocFind (es.filter (fun e => pred e.1)) h = assocFind es h := by
  induction es with
  | nil => rfl
  | cons e rest ih =>
    obtain ⟨k, v⟩ := e
    by_cases hk : k = h
    · subst hk
      simp only [List.filter_cons, hp, if_true, assocFind]
    · by_cases hpk : pred k = true
      · simp only [List.filter_cons, hpk, if_true, assocFind, if_neg hk]
        simpa [assocFind, hpk] using ih
      · simp only [List.filter_cons, assocFind, if_neg hk]
        simp only [Bool.not_eq_true] at hpk
        simp [hpk, ih]

theorem length_filter_partition (pred : Nat × Tuple → Bool)
    (es : List (Nat × Tuple)) :
    (es.filter pred).length + (es.filter (fun e => !pred e)).length
      = es.length := by
  induction es with
  | nil => rfl
  | cons e rest ih =>
    by_cases hp : pred e = true
    · simp [List.filter_cons, hp, ih]
      omega
    · simp only [Bool.not_eq_true] at hp
      simp [List.filter_cons, hp, ih]
      omega

theorem nodup_keys_filter (pred : Nat × Tuple → Bool)
    (es : List (Nat × Tuple)) (hnd : (es.map Prod.fst).Nodup) :
    ((es.filter pred).map Prod.fst).Nodup :=
  ((es.filter_sublist (p := pred)).map Prod.fst).nodup hnd

theorem insertIntoEntries_mem (es : List (Nat × Tuple)) (h : Nat) (t : Tuple) :
    ∀ e ∈ (insertIntoEntries es h t).2, e ∈ es ∨ e.1 = h := by
  induction es with
  | nil =>
    intro e he
    simp only [insertIntoEntries] at he
    rcases List.mem_cons.mp he with he | he
    · right
      rw [he]
    · simp at he
  | cons e0 rest ih =>
    obtain ⟨k, v⟩ := e0
    intro e he
    by_cases hk : k = h
    · subst hk
      simp only [insertIntoEntries, if_pos rfl] at he
      rcases List.mem_cons.mp he with he | he
      · right
        rw [he]
      · left
        exact List.mem_cons_of_mem _ he
    · simp only [insertIntoEntries, if_neg hk] at he
      rcases List.mem_cons.mp he with he | he
      · left
        rw [he]
        exact List.mem_cons_self _ _
      · rcases ih e he with h1 | h1
        · exact Or.inl (List.mem_cons_of_mem _ h1)
        · exact Or.inr h1

theorem insertIntoEntries_keys_of_not_found (es : List (Nat × Tuple))
    (h : Nat) (t : Tuple) (hn : assocFind es h = none) :
    ((insertIntoEntries es h t).2).map Prod.fst = es.map Prod.fst ++ [h] := by
  rw [insertIntoEntries_not_found es h t hn]
  simp

theorem insertIntoEntries_nodup (es : List (Nat × Tuple)) (h : Nat)
    (t : Tuple) (hnd : (es.map Prod.fst).Nodup) :
    (((insertIntoEntries es h t).2).map Prod.fst).Nodup := by
  cases hf : assocFind es h with
  | none =>
    rw [insertIntoEntries_keys_of_not_found es h t hf]
    have hmem := (assocFind_eq_none_iff es h).mp hf
    simp [List.nodup_append, hnd, hmem]
  | some told =>
    rw [insertIntoEntries_keys_of_found es h t told hf]
    exact hnd

theorem insertIntoEntries_length_le (es : List (Nat × Tuple)) (h : Nat)
    (t : Tuple) :
    ((insertIntoEntries es h t).2).length ≤ es.length + 1 := by
  cases hf : assocFind es h with
  | none => rw [insertIntoEntries_not_found es h t hf]; simp
  | some told =>
    rw [insertIntoEntries_length_of_found es h t told hf]
    omega

theorem pageIndexOf_lt (dir : BlockDirectory) (h : Nat)
    (hsv : ∀ j < 2 ^ dir.globalDepth, dir.slots j < dir.numPages) :
    pageIndexOf dir h < dir.numPages :=
  hsv _ (Nat.mod_lt _ (Nat.pos_pow_of_pos _ (by omega)))

theorem insertRaw_snd_slots (dir : BlockDirectory) (h : Nat) (t : Tuple) :
    ((insertRaw dir h t).2).slots = dir.slots := rfl

theorem insertRaw_snd_globalDepth (dir : BlockDirectory) (h : Nat) (t : Tuple) :
    ((insertRaw dir h t).2).globalDepth = dir.globalDepth := rfl

theorem insertRaw_snd_bucketSize (dir : BlockDirectory) (h : Nat) (t : Tuple) :
    ((insertRaw dir h t).2).bucketSize = dir.bucketSize := rfl

theorem insertRaw_snd_numPages (dir : BlockDirectory) (h : Nat) (t : Tuple) :
    ((insertRaw dir h t).2).numPages = dir.numPages := rfl

theorem insertRaw_snd_pages (dir : BlockDirectory) (h : Nat) (t : Tuple)
    (j : Nat) :
    ((insertRaw dir h t).2).pages j =
      if j = pageIndexOf dir h then
        ⟨(dir.pages (pageIndexOf dir h)).localDepth,
         (insertIntoEntries (dir.pages (pageIndexOf dir h)).entries h t).2⟩
      else dir.pages j := rfl

theorem pageIndexOf_insertRaw (dir : BlockDirectory) (h : Nat) (t : Tuple)
    (h' : Nat) :
    pageIndexOf ((insertRaw dir h t).2) h' = pageIndexOf dir h' := rfl

theorem insertRaw_pages_localDepth (dir : BlockDirectory) (h : Nat) (t : Tuple)
    (j : Nat) :
    (((insertRaw dir h t).2).pages j).localDepth
      = (dir.pages j).localDepth := by
  rw [insertRaw_snd_pages]
  by_cases hj : j = pageIndexOf dir h
  · rw [if_pos hj, hj]
  · rw [if_neg hj]

theorem insertRaw_wf (dir : BlockDirectory) (h : Nat) (t : Tuple)
    (hwf : DirWF dir) : DirWF ((insertRaw dir h t).2) := by
  obtain ⟨hsv, hle, hal, hpl, hnd⟩ := hwf
  have hplt : pageIndexOf dir h < dir.numPages := pageIndexOf_lt dir h hsv
  refine ⟨hsv, ?_, ?_, ?_, ?_⟩
  · intro i hi
    rw [insertRaw_pages_localDepth]
    exact hle i hi
  · intro i hi
    obtain ⟨p0, hp0, hiff⟩ := hal i hi
    refine ⟨p0, ?_, ?_⟩
    · rw [insertRaw_pages_localDepth]
      exact hp0
    · intro j hj
      rw [insertRaw_pages_localDepth]
      exact hiff j hj
  · intro i hi e he
    rw [insertRaw_snd_pages] at he
    by_cases hip : i = pageIndexOf dir h
    · rw [if_pos hip] at he
      rcases insertIntoEntries_mem _ _ _ e he with hmem | hkey
      · rw [hip]
        exact hpl (pageIndexOf dir h) hplt e hmem
      · rw [hkey, hip]
        rfl
    · rw [if_neg hip] at he
      exact hpl i hi e he
  · intro i hi
    rw [insertRaw_snd_pages]
    by_cases hip : i = pageIndexOf dir h
    · rw [if_pos hip]
      exact insertIntoEntries_nodup _ h t (hnd _ hplt)
    · rw [if_neg hip]
      exact hnd i hi

theorem insertRaw_lookup_self (dir : BlockDirectory) (h : Nat) (t : Tuple) :
    dirLookup ((insertRaw dir h t).2) h = some t := by
  rw [dirLookup]
  rw [show pageIndexOf ((insertRaw dir h t).2) h = pageIndexOf dir h from rfl]
  rw [insertRaw_snd_pages, if_pos rfl]
  exact assocFind_insert_self _ h t

theorem insertRaw_lookup_other (dir : BlockDirectory) (h : Nat) (t : Tuple)
    (h' : Nat) (hne : h' ≠ h) :
    dirLookup ((insertRaw dir h t).2) h' = dirLookup dir h' := by
  rw [dirLookup, dirLookup]
  rw [show pageIndexOf ((insertRaw dir h t).2) h' = pageIndexOf dir h' from rfl]
  rw [insertRaw_snd_pages]
  by_cases hp : pageIndexOf dir h' = pageIndexOf dir h
  · rw [if_pos hp, hp]
    exact assocFind_insert_other _ h t h' hne
  · rw [if_neg hp]

theorem doubleDir_slots (dir : BlockDirectory) (j : Nat) :
    (doubleDir dir).slots j = dir.slots (j % 2 ^ dir.globalDepth) := rfl

theorem pageIndexOf_doubleDir (dir : BlockDirectory) (h' : Nat) :
    pageIndexOf (doubleDir dir) h' = pageIndexOf dir h' := by
  rw [pageIndexOf, pageIndexOf, doubleDir_slots,
    show (doubleDir dir).globalDepth = dir.globalDepth + 1 from rfl,
    mod_pow_mod_pow h' dir.globalDepth (dir.globalDepth + 1) (by omega)]

theorem doubleDir_lookup (dir : BlockDirectory) (h' : Nat) :
    dirLookup (doubleDir dir) h' = dirLookup dir h' := by
  rw [dirLookup, dirLookup, pageIndexOf_doubleDir]
  rfl

theorem doubleDir_wf (dir : BlockDirectory) (hwf : DirWF dir) :
    DirWF (doubleDir dir) := by
  obtain ⟨hsv, hle, hal, hpl, hnd⟩ := hwf
  refine ⟨?_, ?_, ?_, ?_, hnd⟩
  · intro j hj
    rw [doubleDir_slots]
    exact hsv _ (Nat.mod_lt _ (Nat.pos_pow_of_pos _ (by omega)))
  · intro i hi
    exact Nat.le_succ_of_le (hle i hi)
  · intro i hi
    obtain ⟨p0, hp0, hiff⟩ := hal i hi
    refine ⟨p0, hp0, ?_⟩
    intro j hj
    rw [doubleDir_slots]
    have hjd : j % 2 ^ dir.globalDepth < 2 ^ dir.globalDepth :=
      Nat.mod_lt _ (Nat.pos_pow_of_pos _ (by omega))
    rw [hiff _ hjd, show (doubleDir dir).pages = dir.pages from rfl,
      mod_pow_mod_pow j (dir.pages i).localDepth dir.globalDepth (hle i hi)]
  · intro i hi e he
    rw [doubleDir_slots,
      show (doubleDir dir).globalDepth = dir.globalDepth + 1 from rfl,
      mod_pow_mod_pow e.1 dir.globalDepth (dir.globalDepth + 1) (by omega)]
    exact hpl i hi e he

theorem testBit_true_of_mod (x l v : Nat) (_hv : v < 2 ^ l)
    (hx : x % 2 ^ (l + 1) = v + 2 ^ l) : x.testBit l = true := by
  cases hb : x.testBit l with
  | true => rfl
  | false =>
    have h1 := mod_pow_succ_of_testBit_false x l hb
    have h2 : x % 2 ^ l < 2 ^ l :=
      Nat.mod_lt _ (Nat.pos_pow_of_pos _ (by omega))
    omega

theorem testBit_false_of_mod (x l v : Nat) (hv : v < 2 ^ l)
    (hx : x % 2 ^ (l + 1) = v) : x.testBit l = false := by
  cases hb : x.testBit l with
  | false => rfl
  | true =>
    have h1 := mod_pow_succ_of_testBit_true x l hb
    have h2 : x % 2 ^ l < 2 ^ l :=
      Nat.mod_lt _ (Nat.pos_pow_of_pos _ (by omega))
    omega

theorem redistribute_slots (dir : BlockDirectory) (p l h j : Nat) :
    (redistribute dir p l h).slots j =
      if j % 2 ^ (l + 1) = h % 2 ^ l + 2 ^ l then dir.numPages
      else dir.slots j := rfl

theorem redistribute_pages (dir : BlockDirectory) (p l h j : Nat) :
    (redistribute dir p l h).pages j =
      if j = dir.numPages then
        ⟨l + 1, (dir.pages p).entries.filter (fun e => e.1.testBit l)⟩
      else if j = p then
        ⟨l + 1, (dir.pages p).entries.filter (fun e => !e.1.testBit l)⟩
      else dir.pages j := rfl

theorem slots_iff_pattern (dir : BlockDirectory) (h : Nat) (hwf : DirWF dir) :
    ∀ j < 2 ^ dir.globalDepth,
      (dir.slots j = pageIndexOf dir h ↔
        j % 2 ^ (dir.pages (pageIndexOf dir h)).localDepth =
          h % 2 ^ (dir.pages (pageIndexOf dir h)).localDepth) := by
  obtain ⟨hsv, hle, hal, hpl, hnd⟩ := hwf
  have hplt := pageIndexOf_lt dir h hsv
  obtain ⟨p0, hp0, hiff⟩ := hal _ hplt
  have hpos : (0 : Nat) < 2 ^ dir.globalDepth :=
    Nat.pos_pow_of_pos _ (by omega)
  have hhlt : h % 2 ^ dir.globalDepth < 2 ^ dir.globalDepth :=
    Nat.mod_lt _ hpos
  have hself : dir.slots (h % 2 ^ dir.globalDepth) = pageIndexOf dir h := rfl
  have hq := (hiff _ hhlt).mp hself
  rw [mod_pow_mod_pow h _ _ (hle _ hplt)] at hq
  intro j hj
  rw [hiff j hj, hq]

theorem entries_pattern (dir : BlockDirectory) (h : Nat) (hwf : DirWF dir) :
    ∀ e ∈ (dir.pages (pageIndexOf dir h)).entries,
      e.1 % 2 ^ (dir.pages (pageIndexOf dir h)).localDepth =
        h % 2 ^ (dir.pages (pageIndexOf dir h)).localDepth := by
  intro e he
  obtain ⟨hsv, hle, hal, hpl, hnd⟩ := hwf
  have hplt := pageIndexOf_lt dir h hsv
  have hpl' := hpl _ hplt e he
  have helt : e.1 % 2 ^ dir.globalDepth < 2 ^ dir.globalDepth :=
    Nat.mod_lt _ (Nat.pos_pow_of_pos _ (by omega))
  have hiff := slots_iff_pattern dir h ⟨hsv, hle, hal, hpl, hnd⟩ _ helt
  have := hiff.mp hpl'
  rwa [mod_pow_mod_pow e.1 _ _ (hle _ hplt)] at this

theorem DirPage_mk_localDepth (a : Nat) (b : List (Nat × Tuple)) :
    (DirPage.mk a b).localDepth = a := rfl

theorem DirPage_mk_entries (a : Nat) (b : List (Nat × Tuple)) :
    (DirPage.mk a b).entries = b := rfl

theorem redistribute_globalDepth (dir : BlockDirectory) (p l h : Nat) :
    (redistribute dir p l h).globalDepth = dir.globalDepth := rfl

theorem redistribute_numPages (dir : BlockDirectory) (p l h : Nat) :
    (redistribute dir p l h).numPages = dir.numPages + 1 := rfl

theorem redistribute_bucketSize (dir : BlockDirectory) (p l h : Nat) :
    (redistribute dir p l h).bucketSize = dir.bucketSize := rfl

theorem redistribute_wf (dir : BlockDirectory) (p l h : Nat)
    (hp : p = pageIndexOf dir h) (hl : l = (dir.pages p).localDepth)
    (hld : l < dir.globalDepth) (hwf : DirWF dir) :
    DirWF (redistribute dir p l h) := by
  obtain ⟨hsv, hle, hal, hpl, hnd⟩ := hwf
  have hpos : (0 : Nat) < 2 ^ l := Nat.pos_pow_of_pos _ (by omega)
  have hplt : p < dir.numPages := hp ▸ pageIndexOf_lt dir h hsv
  have hhl : h % 2 ^ l < 2 ^ l := Nat.mod_lt _ hpos
  have hsp : ∀ j < 2 ^ dir.globalDepth,
      (dir.slots j = p ↔ j % 2 ^ l = h % 2 ^ l) := by
    intro j hj
    have hx := slots_iff_pattern dir h ⟨hsv, hle, hal, hpl, hnd⟩ j hj
    rw [← hp, ← hl] at hx
    exact hx
  have hep : ∀ e ∈ (dir.pages p).entries, e.1 % 2 ^ l = h % 2 ^ l := by
    intro e he
    rw [hp] at he
    have h2 := entries_pattern dir h ⟨hsv, hle, hal, hpl, hnd⟩ e he
    rw [← hp, ← hl] at h2
    exact h2
  have hmodl : ∀ j : Nat, j % 2 ^ (l + 1) % 2 ^ l = j % 2 ^ l :=
    fun j => mod_pow_mod_pow j l (l + 1) (by omega)
  have hmd : ∀ x : Nat,
      x % 2 ^ dir.globalDepth % 2 ^ (l + 1) = x % 2 ^ (l + 1) :=
    fun x => mod_pow_mod_pow x (l + 1) dir.globalDepth hld
  have hsplit : ∀ j : Nat, j % 2 ^ (l + 1) = j % 2 ^ l ∨
      j % 2 ^ (l + 1) = j % 2 ^ l + 2 ^ l := by
    intro j
    cases hb : j.testBit l with
    | false => exact Or.inl (mod_pow_succ_of_testBit_false j l hb)
    | true => exact Or.inr (mod_pow_succ_of_testBit_true j l hb)
  have hpow1 : 2 ^ (l + 1) = 2 ^ l * 2 := pow_succ 2 l
  refine ⟨?_, ?_, ?_, ?_, ?_⟩
  · intro j hj
    rw [redistribute_slots]
    by_cases hr : j % 2 ^ (l + 1) = h % 2 ^ l + 2 ^ l
    · rw [if_pos hr]
      exact Nat.lt_succ_self _
    · rw [if_neg hr]
      exact Nat.lt_succ_of_lt (hsv j hj)
  · intro i hi
    rw [redistribute_pages]
    by_cases hi1 : i = dir.numPages
    · rw [if_pos hi1, DirPage_mk_localDepth]
      exact hld
    · rw [if_neg hi1]
      by_cases hi2 : i = p
      · rw [if_pos hi2, DirPage_mk_localDepth]
        exact hld
      · rw [if_neg hi2]
        have hilt : i < dir.numPages := by
          have hi' : i < dir.numPages + 1 := hi
          omega
        exact hle i hilt
  · intro i hi
    rw [redistribute_pages]
    by_cases hi1 : i = dir.numPages
    · subst hi1
      rw [if_pos rfl, DirPage_mk_localDepth]
      refine ⟨h % 2 ^ l + 2 ^ l, by omega, ?_⟩
      intro j hj
      rw [redistribute_slots]
      by_cases hr : j % 2 ^ (l + 1) = h % 2 ^ l + 2 ^ l
      · rw [if_pos hr]
        exact ⟨fun _ => hr, fun _ => rfl⟩
      · rw [if_neg hr]
        exact ⟨fun hcon => absurd hcon (Nat.ne_of_lt (hsv j hj)),
               fun hcon => absurd hcon hr⟩
    · rw [if_neg hi1]
      by_cases hi2 : i = p
      · subst hi2
        rw [if_pos rfl, DirPage_mk_localDepth]
        refine ⟨h % 2 ^ l, by omega, ?_⟩
        intro j hj
        rw [redistribute_slots]
        by_cases hr : j % 2 ^ (l + 1) = h % 2 ^ l + 2 ^ l
        · rw [if_pos hr]
          refine ⟨fun hcon => absurd hcon.symm (Nat.ne_of_lt hplt),
                  fun hcon => by omega⟩
        · rw [if_neg hr]
          rw [hsp j hj]
          constructor
          · intro hjl
            rcases hsplit j with hs | hs
            · rw [hs, hjl]
            · rw [hs, hjl] at hr
              exact absurd rfl hr
          · intro hj1
            have hm := hmodl j
            rw [hj1, Nat.mod_eq_of_lt hhl] at hm
            exact hm.symm
      · rw [if_neg hi2]
        have hilt : i < dir.numPages := by
          have hi' : i < dir.numPages + 1 := hi
          omega
        obtain ⟨q0, hq0, hiffq⟩ := hal i hilt
        refine ⟨q0, hq0, ?_⟩
        intro j hj
        rw [redistribute_slots]
        by_cases hr : j % 2 ^ (l + 1) = h % 2 ^ l + 2 ^ l
        · rw [if_pos hr]
          constructor
          · intro hcon
            exact absurd hcon.symm (Nat.ne_of_lt hilt)
          · intro hcon
            have hjl : j % 2 ^ l = h % 2 ^ l := by
              have hm := hmodl j
              rw [hr, Nat.add_mod_right, Nat.mod_eq_of_lt hhl] at hm
              exact hm.symm
            have h1 : dir.slots j = p := (hsp j hj).mpr hjl
            have h2 : dir.slots j = i := (hiffq j hj).mpr hcon
            exact absurd (h2.symm.trans h1) hi2
        · rw [if_neg hr]
          exact hiffq j hj
  · intro i hi e he
    rw [redistribute_pages] at he
    rw [redistribute_globalDepth, redistribute_slots]
    by_cases hi1 : i = dir.numPages
    · subst hi1
      rw [if_pos rfl, DirPage_mk_entries] at he
      obtain ⟨hmem, hbit⟩ := List.mem_filter.mp he
      have he1 : e.1 % 2 ^ (l + 1) = h % 2 ^ l + 2 ^ l := by
        rw [mod_pow_succ_of_testBit_true e.1 l hbit, hep e hmem]
      have : e.1 % 2 ^ dir.globalDepth % 2 ^ (l + 1)
          = h % 2 ^ l + 2 ^ l := by rw [hmd, he1]
      rw [if_pos this]
    · rw [if_neg hi1] at he
      by_cases hi2 : i = p
      · subst hi2
        rw [if_pos rfl, DirPage_mk_entries] at he
        obtain ⟨hmem, hbit⟩ := List.mem_filter.mp he
        have hbit' : e.1.testBit l = false := by
          cases hb : e.1.testBit l with
          | false => rfl
          | true =>
            rw [hb] at hbit
            simp at hbit
        have he1 : e.1 % 2 ^ (l + 1) = h % 2 ^ l := by
          rw [mod_pow_succ_of_testBit_false e.1 l hbit', hep e hmem]
        have hne : e.1 % 2 ^ dir.globalDepth % 2 ^ (l + 1)
            ≠ h % 2 ^ l + 2 ^ l := by
          rw [hmd, he1]
          omega
        rw [if_neg hne]
        exact hpl i hplt e hmem
      · rw [if_neg hi2] at he
        have hilt : i < dir.numPages := by
          have hi' : i < dir.numPages + 1 := hi
          omega
        have hplace := hpl i hilt e he
        have hne : e.1 % 2 ^ dir.globalDepth % 2 ^ (l + 1)
            ≠ h % 2 ^ l + 2 ^ l := by
          intro hcon
          have hjl : e.1 % 2 ^ dir.globalDepth % 2 ^ l = h % 2 ^ l := by
            have hm := hmodl (e.1 % 2 ^ dir.globalDepth)
            rw [hcon, Nat.add_mod_right, Nat.mod_eq_of_lt hhl] at hm
            exact hm.symm
          have helt : e.1 % 2 ^ dir.globalDepth < 2 ^ dir.globalDepth :=
            Nat.mod_lt _ (Nat.pos_pow_of_pos _ (by omega))
          have h1 : dir.slots (e.1 % 2 ^ dir.globalDepth) = p :=
            (hsp _ helt).mpr hjl
          exact hi2 (hplace.symm.trans h1)
        rw [if_neg hne]
        exact hplace
  · intro i hi
    rw [redistribute_pages]
    by_cases hi1 : i = dir.numPages
    · rw [if_pos hi1, DirPage_mk_entries]
      exact nodup_keys_filter _ _ (hnd p hplt)
    · rw [if_neg hi1]
      by_cases hi2 : i = p
      · rw [if_pos hi2, DirPage_mk_entries]
        exact nodup_keys_filter _ _ (hnd p hplt)
      · rw [if_neg hi2]
        have hilt : i < dir.numPages := by
          have hi' : i < dir.numPages + 1 := hi
          omega
        exact hnd i hilt

theorem redistribute_lookup (dir : BlockDirectory) (p l h : Nat)
    (hp : p = pageIndexOf dir h) (hl : l = (dir.pages p).localDepth)
    (hld : l < dir.globalDepth) (hwf : DirWF dir) :
    ∀ h', dirLookup (redistribute dir p l h) h' = dirLookup dir h' := by
  obtain ⟨hsv, hle, hal, hpl, hnd⟩ := hwf
  have hpos : (0 : Nat) < 2 ^ l := Nat.pos_pow_of_pos _ (by omega)
  have hplt : p < dir.numPages := hp ▸ pageIndexOf_lt dir h hsv
  have hhl : h % 2 ^ l < 2 ^ l := Nat.mod_lt _ hpos
  have hsp : ∀ j < 2 ^ dir.globalDepth,
      (dir.slots j = p ↔ j % 2 ^ l = h % 2 ^ l) := by
    intro j hj
    have hx := slots_iff_pattern dir h ⟨hsv, hle, hal, hpl, hnd⟩ j hj
    rw [← hp, ← hl] at hx
    exact hx
  have hmodl : ∀ j : Nat, j % 2 ^ (l + 1) % 2 ^ l = j % 2 ^ l :=
    fun j => mod_pow_mod_pow j l (l + 1) (by omega)
  have hmd : ∀ x : Nat,
      x % 2 ^ dir.globalDepth % 2 ^ (l + 1) = x % 2 ^ (l + 1) :=
    fun x => mod_pow_mod_pow x (l + 1) dir.globalDepth hld
  have hmdl : ∀ x : Nat,
      x % 2 ^ dir.globalDepth % 2 ^ l = x % 2 ^ l :=
    fun x => mod_pow_mod_pow x l dir.globalDepth (by omega)
  have hsplit : ∀ j : Nat, j % 2 ^ (l + 1) = j % 2 ^ l ∨
      j % 2 ^ (l + 1) = j % 2 ^ l + 2 ^ l := by
    intro j
    cases hb : j.testBit l with
    | false => exact Or.inl (mod_pow_succ_of_testBit_false j l hb)
    | true => exact Or.inr (mod_pow_succ_of_testBit_true j l hb)
  intro h'
  have hlt : h' % 2 ^ dir.globalDepth < 2 ^ dir.globalDepth :=
    Nat.mod_lt _ (Nat.pos_pow_of_pos _ (by omega))
  simp only [dirLookup, pageIndexOf, redistribute_globalDepth,
    redistribute_slots]
  by_cases hr : h' % 2 ^ dir.globalDepth % 2 ^ (l + 1) = h % 2 ^ l + 2 ^ l
  · rw [if_pos hr]
    rw [redistribute_pages, if_pos rfl, DirPage_mk_entries]
    have hjl : h' % 2 ^ dir.globalDepth % 2 ^ l = h % 2 ^ l := by
      have hm := hmodl (h' % 2 ^ dir.globalDepth)
      rw [hr, Nat.add_mod_right, Nat.mod_eq_of_lt hhl] at hm
      exact hm.symm
    have hsl : dir.slots (h' % 2 ^ dir.globalDepth) = p := (hsp _ hlt).mpr hjl
    rw [hsl]
    have hb : h'.testBit l = true := by
      apply testBit_true_of_mod h' l (h % 2 ^ l) hhl
      rw [← hmd h']
      exact hr
    exact assocFind_filter_key (fun k => k.testBit l) _ h' hb
  · rw [if_neg hr]
    by_cases hsl : dir.slots (h' % 2 ^ dir.globalDepth) = p
    · rw [hsl, redistribute_pages, if_neg (Nat.ne_of_lt hplt), if_pos rfl,
        DirPage_mk_entries]
      have hjl : h' % 2 ^ l = h % 2 ^ l := by
        have := (hsp _ hlt).mp hsl
        rwa [hmdl h'] at this
      have hj1 : h' % 2 ^ (l + 1) = h % 2 ^ l := by
        rcases hsplit h' with hs | hs
        · rw [hs, hjl]
        · exfalso
          apply hr
          rw [hmd h', hs, hjl]
      have hb : h'.testBit l = false := testBit_false_of_mod h' l _ hhl hj1
      apply assocFind_filter_key (fun k => !k.testBit l) _ h'
      rw [hb]
      rfl
    · have hqlt : dir.slots (h' % 2 ^ dir.globalDepth) < dir.numPages :=
        hsv _ hlt
      rw [redistribute_pages, if_neg (Nat.ne_of_lt hqlt), if_neg hsl]

theorem pageIndexOf_redistribute_self (dir : BlockDirectory) (p l h : Nat)
    (hp : p = pageIndexOf dir h) (_hl : l = (dir.pages p).localDepth)
    (hld : l < dir.globalDepth) :
    pageIndexOf (redistribute dir p l h) h =
      if h.testBit l then dir.numPages else p := by
  have hpos : (0 : Nat) < 2 ^ l := Nat.pos_pow_of_pos _ (by omega)
  have hhl : h % 2 ^ l < 2 ^ l := Nat.mod_lt _ hpos
  have hmd : ∀ x : Nat,
      x % 2 ^ dir.globalDepth % 2 ^ (l + 1) = x % 2 ^ (l + 1) :=
    fun x => mod_pow_mod_pow x (l + 1) dir.globalDepth hld
  rw [pageIndexOf, redistribute_globalDepth, redistribute_slots]
  cases hb : h.testBit l with
  | true =>
    have h1 : h % 2 ^ (l + 1) = h % 2 ^ l + 2 ^ l :=
      mod_pow_succ_of_testBit_true h l hb
    rw [if_pos (by rw [hmd h, h1])]
    simp
  | false =>
    have h1 : h % 2 ^ (l + 1) = h % 2 ^ l :=
      mod_pow_succ_of_testBit_false h l hb
    have hne : h % 2 ^ dir.globalDepth % 2 ^ (l + 1) ≠ h % 2 ^ l + 2 ^ l := by
      rw [hmd h, h1]
      omega
    rw [if_neg hne]
    simp only [Bool.false_eq_true, if_false]
    exact hp.symm

theorem length_partition_testBit (l : Nat) (es : List (Nat × Tuple)) :
    (es.filter (fun e => e.1.testBit l)).length +
      (es.filter (fun e => !e.1.testBit l)).length = es.length :=
  length_filter_partition (fun e => e.1.testBit l) es

theorem redistribute_caps (dir : BlockDirectory) (p l h : Nat)
    (hp : p = pageIndexOf dir h) (hl : l = (dir.pages p).localDepth)
    (hld : l < dir.globalDepth) (hwf : DirWF dir)
    (t0 : Tuple) (hfound : dirLookup dir h = some t0)
    (hother : ∀ i < dir.numPages, i ≠ p →
      (dir.pages i).entries.length ≤ dir.bucketSize)
    (hpcap : (dir.pages p).entries.length ≤ dir.bucketSize + 1) :
    (∀ i < (redistribute dir p l h).numPages,
      i ≠ pageIndexOf (redistribute dir p l h) h →
      ((redistribute dir p l h).pages i).entries.length ≤ dir.bucketSize) ∧
    ((redistribute dir p l h).pages
        (pageIndexOf (redistribute dir p l h) h)).entries.length
      ≤ dir.bucketSize + 1 := by
  have hwf' := hwf
  obtain ⟨hsv, hle, hal, hpl, hnd⟩ := hwf'
  have hplt : p < dir.numPages := hp ▸ pageIndexOf_lt dir h hsv
  have hmem : (h, t0) ∈ (dir.pages p).entries := by
    rw [dirLookup, ← hp] at hfound
    exact assocFind_mem _ h t0 hfound
  have hpartition := length_partition_testBit l (dir.pages p).entries
  have hnew := pageIndexOf_redistribute_self dir p l h hp hl hld
  have hmove_le : ((dir.pages p).entries.filter
      (fun e => e.1.testBit l)).length ≤ (dir.pages p).entries.length :=
    List.length_filter_le _ _
  have hstay_le : ((dir.pages p).entries.filter
      (fun e => !e.1.testBit l)).length ≤ (dir.pages p).entries.length :=
    List.length_filter_le _ _
  cases hb : h.testBit l with
  | true =>
    simp only [hb, if_true] at hnew
    have hin : (h, t0) ∈ (dir.pages p).entries.filter
        (fun e => e.1.testBit l) :=
      List.mem_filter.mpr ⟨hmem, hb⟩
    have hmove_pos := List.length_pos_of_mem hin
    constructor
    · intro i hi hine
      rw [hnew] at hine
      rw [redistribute_pages, if_neg hine]
      by_cases hi2 : i = p
      · rw [if_pos hi2, DirPage_mk_entries]
        omega
      · rw [if_neg hi2]
        have hilt : i < dir.numPages := by
          have hi' : i < dir.numPages + 1 := hi
          omega
        exact hother i hilt hi2
    · rw [hnew, redistribute_pages, if_pos rfl, DirPage_mk_entries]
      omega
  | false =>
    simp only [hb, Bool.false_eq_true, if_false] at hnew
    have hin : (h, t0) ∈ (dir.pages p).entries.filter
        (fun e => !e.1.testBit l) :=
      List.mem_filter.mpr ⟨hmem, by rw [hb]; rfl⟩
    have hstay_pos := List.length_pos_of_mem hin
    constructor
    · intro i hi hine
      rw [hnew] at hine
      rw [redistribute_pages]
      by_cases hi1 : i = dir.numPages
      · rw [if_pos hi1, DirPage_mk_entries]
        omega
      · rw [if_neg hi1, if_neg hine]
        have hilt : i < dir.numPages := by
          have hi' : i < dir.numPages + 1 := hi
          omega
        exact hother i hilt hine
    · rw [hnew, redistribute_pages, if_neg (Nat.ne_of_lt hplt), if_pos rfl,
        DirPage_mk_entries]
      omega

theorem splitOnce_spec (dir : BlockDirectory) (h : Nat) (hwf : DirWF dir)
    (t0 : Tuple) (hfound : dirLookup dir h = some t0)
    (hother : ∀ i < dir.numPages, i ≠ pageIndexOf dir h →
      (dir.pages i).entries.length ≤ dir.bucketSize)
    (hpcap : (dir.pages (pageIndexOf dir h)).entries.length
      ≤ dir.bucketSize + 1) :
    DirWF (splitOnce dir h) ∧
    (∀ h', dirLookup (splitOnce dir h) h' = dirLookup dir h') ∧
    (splitOnce dir h).bucketSize = dir.bucketSize ∧
    (∀ i < (splitOnce dir h).numPages,
      i ≠ pageIndexOf (splitOnce dir h) h →
      ((splitOnce dir h).pages i).entries.length ≤ dir.bucketSize) ∧
    ((splitOnce dir h).pages
        (pageIndexOf (splitOnce dir h) h)).entries.length
      ≤ dir.bucketSize + 1 := by
  have hplt : pageIndexOf dir h < dir.numPages := pageIndexOf_lt dir h hwf.1
  have hle := hwf.2.1
  by_cases hcase : (dir.pages (pageIndexOf dir h)).localDepth
      = dir.globalDepth
  · have heq : splitOnce dir h = redistribute (doubleDir dir)
        (pageIndexOf dir h) (dir.pages (pageIndexOf dir h)).localDepth h := by
      rw [splitOnce, if_pos hcase]
    rw [heq]
    have hwf1 : DirWF (doubleDir dir) := doubleDir_wf dir hwf
    have hp1 : pageIndexOf dir h = pageIndexOf (doubleDir dir) h :=
      (pageIndexOf_doubleDir dir h).symm
    have hl1 : (dir.pages (pageIndexOf dir h)).localDepth
        = ((doubleDir dir).pages (pageIndexOf dir h)).localDepth := rfl
    have hld1 : (dir.pages (pageIndexOf dir h)).localDepth
        < (doubleDir dir).globalDepth := by
      rw [hcase]
      exact Nat.lt_succ_self _
    have hfound1 : dirLookup (doubleDir dir) h = some t0 := by
      rw [doubleDir_lookup]
      exact hfound
    have hother1 : ∀ i < (doubleDir dir).numPages,
        i ≠ pageIndexOf dir h →
        ((doubleDir dir).pages i).entries.length
          ≤ (doubleDir dir).bucketSize := by
      intro i hi hine
      exact hother i hi hine
    have hpcap1 : ((doubleDir dir).pages
        (pageIndexOf dir h)).entries.length
        ≤ (doubleDir dir).bucketSize + 1 := hpcap
    have hcaps := redistribute_caps (doubleDir dir) (pageIndexOf dir h)
      (dir.pages (pageIndexOf dir h)).localDepth h hp1 hl1 hld1 hwf1 t0
      hfound1 hother1 hpcap1
    refine ⟨redistribute_wf _ _ _ _ hp1 hl1 hld1 hwf1, ?_, rfl, hcaps.1,
      hcaps.2⟩
    intro h'
    rw [redistribute_lookup _ _ _ _ hp1 hl1 hld1 hwf1 h', doubleDir_lookup]
  · have heq : splitOnce dir h = redistribute dir
        (pageIndexOf dir h) (dir.pages (pageIndexOf dir h)).localDepth h := by
      rw [splitOnce, if_neg hcase]
    rw [heq]
    have hld1 : (dir.pages (pageIndexOf dir h)).localDepth
        < dir.globalDepth :=
      Nat.lt_of_le_of_ne (hle _ hplt) hcase
    have hcaps := redistribute_caps dir (pageIndexOf dir h)
      (dir.pages (pageIndexOf dir h)).localDepth h rfl rfl hld1 hwf t0
      hfound hother hpcap
    exact ⟨redistribute_wf _ _ _ _ rfl rfl hld1 hwf,
      redistribute_lookup _ _ _ _ rfl rfl hld1 hwf, rfl, hcaps.1, hcaps.2⟩

theorem fixupLoop_spec (h : Nat) (t0 : Tuple) :
    ∀ (fuel : Nat) (dir d' : BlockDirectory),
    DirWF dir →
    dirLookup dir h = some t0 →
    (∀ i < dir.numPages, i ≠ pageIndexOf dir h →
      (dir.pages i).entries.length ≤ dir.bucketSize) →
    (dir.pages (pageIndexOf dir h)).entries.length ≤ dir.bucketSize + 1 →
    fixupLoop h fuel dir = some d' →
    AllWithinCap d' ∧ (∀ h', dirLookup d' h' = dirLookup dir h') := by
  intro fuel
  induction fuel with
  | zero =>
    intro dir d' hwf hfound hother hpcap hloop
    rw [fixupLoop] at hloop
    by_cases hc : (dir.pages (pageIndexOf dir h)).entries.length
        ≤ dir.bucketSize
    · rw [if_pos hc] at hloop
      injection hloop with hloop
      subst hloop
      refine ⟨?_, fun h' => rfl⟩
      intro i hi
      by_cases hip : i = pageIndexOf dir h
      · rw [hip]
        exact hc
      · exact hother i hi hip
    · rw [if_neg hc] at hloop
      exact absurd hloop (by simp)
  | succ fuel ih =>
    intro dir d' hwf hfound hother hpcap hloop
    rw [fixupLoop] at hloop
    by_cases hc : (dir.pages (pageIndexOf dir h)).entries.length
        ≤ dir.bucketSize
    · rw [if_pos hc] at hloop
      injection hloop with hloop
      subst hloop
      refine ⟨?_, fun h' => rfl⟩
      intro i hi
      by_cases hip : i = pageIndexOf dir h
      · rw [hip]
        exact hc
      · exact hother i hi hip
    · rw [if_neg hc] at hloop
      obtain ⟨hwf1, hlk1, hbs1, hother1, hpcap1⟩ :=
        splitOnce_spec dir h hwf t0 hfound hother hpcap
      have hfound1 : dirLookup (splitOnce dir h) h = some t0 := by
        rw [hlk1 h]
        exact hfound
      have hrec := ih (splitOnce dir h) d' hwf1 hfound1
        (by
          intro i hi hine
          rw [hbs1]
          exact hother1 i hi hine)
        (by
          rw [hbs1]
          exact hpcap1) hloop
      exact ⟨hrec.1, fun h' => (hrec.2 h').trans (hlk1 h')⟩

/-- Claim C4 (modelled from the spec: the `extendible_hashing` module is
absent from the source tree): for any well-formed directory whose pages
are all within the configured bucket capacity, an insert that completes
(the fuel embedding of the spec's recursive split loop returns a
directory) leaves every page's entry count at most the capacity, locates
the inserted tuple under its key hash, and leaves the lookup of every
other hash unchanged — splits are observationally transparent. -/
theorem claim_C4 (dir : BlockDirectory) (h : Nat) (t : Tuple) (fuel : Nat)
    (hwf : DirWF dir) (hcap : AllWithinCap dir) :
    InsertSpec dir h t (dirInsert dir h t fuel) := by
  cases hres : fixupLoop h fuel (insertRaw dir h t).2 with
  | none =>
    have hd : dirInsert dir h t fuel = none := by
      show (fixupLoop h fuel (insertRaw dir h t).2).map
        (fun d => ((insertRaw dir h t).1, d)) = none
      rw [hres]
      rfl
    rw [hd]
    trivial
  | some d' =>
    have hwf1 := insertRaw_wf dir h t hwf
    have hfound1 := insertRaw_lookup_self dir h t
    have hplt : pageIndexOf dir h < dir.numPages :=
      pageIndexOf_lt dir h hwf.1
    have hother1 : ∀ i < ((insertRaw dir h t).2).numPages,
        i ≠ pageIndexOf ((insertRaw dir h t).2) h →
        (((insertRaw dir h t).2).pages i).entries.length
          ≤ ((insertRaw dir h t).2).bucketSize := by
      intro i hi hine
      rw [pageIndexOf_insertRaw] at hine
      rw [insertRaw_snd_pages, if_neg hine]
      exact hcap i hi
    have hpcap1 : (((insertRaw dir h t).2).pages
        (pageIndexOf ((insertRaw dir h t).2) h)).entries.length
        ≤ ((insertRaw dir h t).2).bucketSize + 1 := by
      rw [pageIndexOf_insertRaw, insertRaw_snd_pages, if_pos rfl,
        DirPage_mk_entries, insertRaw_snd_bucketSize]
      calc ((insertIntoEntries
            (dir.pages (pageIndexOf dir h)).entries h t).2).length
          ≤ (dir.pages (pageIndexOf dir h)).entries.length + 1 :=
            insertIntoEntries_length_le _ h t
        _ ≤ dir.bucketSize + 1 := by
            have := hcap _ hplt
            omega
    have hspec := fixupLoop_spec h t fuel ((insertRaw dir h t).2) d' hwf1
      hfound1 hother1 hpcap1 hres
    have hd : dirInsert dir h t fuel = some ((insertRaw dir h t).1, d') := by
      show (fixupLoop h fuel (insertRaw dir h t).2).map
        (fun d => ((insertRaw dir h t).1, d)) = _
      rw [hres]
      rfl
    rw [hd]
    show AllWithinCap d' ∧
      (∀ h', h' ≠ h → dirLookup d' h' = dirLookup dir h') ∧
      dirLookup d' h = some t
    refine ⟨hspec.1, ?_, ?_⟩
    · intro h' hne
      rw [hspec.2 h', insertRaw_lookup_other dir h t h' hne]
    · rw [hspec.2 h, hfound1]

/-- Witness for C4: a fresh directory with bucket capacity 1; the insert
of hash 0 completes and satisfies the insert specification. -/
theorem claim_C4_witness :
    DirWF (freshDirectory 1) ∧ AllWithinCap (freshDirectory 1) ∧
    InsertSpec (freshDirectory 1) 0 [Value.intV 1]
      (dirInsert (freshDirectory 1) 0 [Value.intV 1] 3) :=
  ⟨by unfold DirWF; decide, by unfold AllWithinCap; decide,
   claim_C4 (freshDirectory 1) 0 [Value.intV 1] 3
     (by unfold DirWF; decide) (by unfold AllWithinCap; decide)⟩

end RadDB
